import Mathlib

set_option maxRecDepth 100000

/-!
# Verification of the GmSSL Python binding (gmssl.py)

This file gives a shallow embedding of the `gmssl.py` binding of the GmSSL
library and settles the specification claims against it.

The Python file under verification is a thin wrapper: it performs input
validation (raising `ValueError`), calls the native engine, and converts the
engine's integer return codes into a single generic `InnerError('libgmssl
inner error')`.  The wrapper logic below is translated directly from the
Python source.  The native engine itself (SM3/SM4/ZUC/GHASH/SM2 arithmetic)
is not part of the repository's sources; those parts are modelled from the
specification, and every such definition carries a doc comment starting with
`Modelled from the spec:`.

Bytes are modelled as natural numbers, with `% 256` applied exactly where an
8-bit quantity is produced; 32-bit words use `% 2 ^ 32`, and 128-bit counters
use `% 2 ^ 128`.
-/

set_option maxHeartbeats 1000000

namespace GmsslPy

/-- The two exception classes of gmssl.py: `ValueError` for input
validation, and `InnerError` for engine failures. -/
inductive GmErr where
  | valueError (msg : String) : GmErr
  | innerError (msg : String) : GmErr
  deriving DecidableEq, Repr

/-- The single generic engine error raised by every wrapper in gmssl.py:
`InnerError('libgmssl inner error')`. -/
def genericInnerError : GmErr := .innerError "libgmssl inner error"

/-- `true` iff an `Except` result is a success. -/
def exceptOk {α : Type} : Except GmErr α → Bool
  | .ok _ => true
  | .error _ => false

/-- All entries of the list are bytes. -/
def allBytes (l : List Nat) : Prop := ∀ b ∈ l, b < 256

instance : DecidablePred allBytes := fun l => List.decidableBAll _ l

/-- 32-bit left rotation. -/
def rotl32 (x n : Nat) : Nat :=
  ((x <<< (n % 32)) ||| (x >>> (32 - n % 32))) % 2 ^ 32

/-- Big-endian 32-bit word from four bytes. -/
def wordOfBytes (b0 b1 b2 b3 : Nat) : Nat :=
  (b0 % 256) * 2 ^ 24 + (b1 % 256) * 2 ^ 16 + (b2 % 256) * 2 ^ 8 + b3 % 256

/-- Big-endian bytes of a 32-bit word. -/
def bytesOfWord (w : Nat) : List Nat :=
  [w / 2 ^ 24 % 256, w / 2 ^ 16 % 256, w / 2 ^ 8 % 256, w % 256]

theorem wordOfBytes_lt (b0 b1 b2 b3 : Nat) : wordOfBytes b0 b1 b2 b3 < 2 ^ 32 := by
  unfold wordOfBytes
  have h0 : b0 % 256 < 256 := Nat.mod_lt _ (by norm_num)
  have h1 : b1 % 256 < 256 := Nat.mod_lt _ (by norm_num)
  have h2 : b2 % 256 < 256 := Nat.mod_lt _ (by norm_num)
  have h3 : b3 % 256 < 256 := Nat.mod_lt _ (by norm_num)
  omega

theorem bytesOfWord_length (w : Nat) : (bytesOfWord w).length = 4 := rfl

theorem bytesOfWord_allBytes (w : Nat) : allBytes (bytesOfWord w) := by
  intro b hb
  simp [bytesOfWord] at hb
  rcases hb with h | h | h | h <;> omega

theorem bytesOfWord_wordOfBytes (b0 b1 b2 b3 : Nat)
    (h0 : b0 < 256) (h1 : b1 < 256) (h2 : b2 < 256) (h3 : b3 < 256) :
    bytesOfWord (wordOfBytes b0 b1 b2 b3) = [b0, b1, b2, b3] := by
  simp only [bytesOfWord, wordOfBytes, List.cons.injEq, and_true]
  omega

theorem wordOfBytes_bytesOfWord (w : Nat) (hw : w < 2 ^ 32) :
    wordOfBytes (w / 2 ^ 24 % 256) (w / 2 ^ 16 % 256) (w / 2 ^ 8 % 256) (w % 256) = w := by
  simp only [wordOfBytes]
  omega

/-- XOR of a keystream list against a data list (the data list's length wins,
mirroring how the engines XOR only as many keystream bytes as data present). -/
def xorB (ks data : List Nat) : List Nat := List.zipWith (fun a b => a ^^^ b) ks data

theorem xorB_length (ks data : List Nat) :
    (xorB ks data).length = min ks.length data.length := by
  simp [xorB]

theorem xor_cancel_left (a b : Nat) : a ^^^ (a ^^^ b) = b := by
  rw [← Nat.xor_assoc, Nat.xor_self, Nat.zero_xor]

theorem xorB_xorB (ks data : List Nat) (h : data.length ≤ ks.length) :
    xorB ks (xorB ks data) = data := by
  induction ks generalizing data with
  | nil => simp at h; simp [h, xorB]
  | cons k ks ih =>
    cases data with
    | nil => simp [xorB]
    | cons d ds =>
      simp only [xorB, List.zipWith] at *
      simp only [List.length_cons, Nat.succ_le_succ_iff] at h
      rw [xor_cancel_left]
      exact congrArg _ (ih ds h)

theorem lt_256_xor (a b : Nat) (ha : a < 256) (hb : b < 256) : a ^^^ b < 256 := by
  have ha8 : a < 2 ^ 8 := by omega
  have hb8 : b < 2 ^ 8 := by omega
  have := Nat.xor_lt_two_pow ha8 hb8
  omega

theorem xorB_allBytes (ks data : List Nat) (hk : allBytes ks) (hd : allBytes data) :
    allBytes (xorB ks data) := by
  induction ks generalizing data with
  | nil => intro b hb; simp [xorB] at hb
  | cons k ks ih =>
    cases data with
    | nil => intro b hb; simp [xorB] at hb
    | cons d ds =>
      intro b hb
      simp only [xorB, List.zipWith, List.mem_cons] at hb
      rcases hb with rfl | hb
      · exact lt_256_xor _ _ (hk k (by simp)) (hd d (by simp))
      · exact ih ds (fun x hx => hk x (by simp [hx])) (fun x hx => hd x (by simp [hx])) b hb

/-- Position-indexed keystream XOR: byte `i` of the data is XORed with
`ks (pos + i) % 256`. -/
def xorKs (ks : Nat → Nat) : Nat → List Nat → List Nat
  | _, [] => []
  | p, b :: bs => (b ^^^ ks p % 256) :: xorKs ks (p + 1) bs

theorem xorKs_length (ks : Nat → Nat) (p : Nat) (l : List Nat) :
    (xorKs ks p l).length = l.length := by
  induction l generalizing p with
  | nil => rfl
  | cons b bs ih => simp [xorKs, ih]

theorem xorKs_xorKs (ks : Nat → Nat) (p : Nat) (l : List Nat) :
    xorKs ks p (xorKs ks p l) = l := by
  induction l generalizing p with
  | nil => rfl
  | cons b bs ih =>
    simp only [xorKs, List.cons.injEq]
    refine ⟨?_, ih (p + 1)⟩
    rw [Nat.xor_assoc, Nat.xor_self, Nat.xor_zero]

/-! ## Generic block-buffered streaming

All the streaming engines (`sm3_update`, `sm4_cbc_*_update`, `sm4_ctr_encrypt_update`,
`zuc_encrypt_update`) share one buffering discipline: incoming bytes are appended to a
partial-block buffer, complete `B`-byte blocks are processed, and — for CBC decryption —
a final block is held back for padding removal at finish.  `keep` is the number of bytes
that must remain buffered (0 for encryption/CTR/ZUC, 1..B for CBC decryption, forcing the
last full block to stay). -/

/-- Result of processing buffered data: new inner state, remaining buffer, output bytes. -/
structure PRes (σ : Type) where
  st : σ
  rest : List Nat
  out : List Nat
  deriving Repr

/-- Modelled from the spec: greedy processing of complete `B`-byte blocks from the
buffer, keeping at least `keep` bytes buffered ("buffers any trailing partial block,
returns only fully-produced output bytes").  `fuel` only drives termination. -/
def procChunks {σ : Type} (f : σ → List Nat → σ × List Nat) (B keep : Nat) :
    Nat → σ → List Nat → PRes σ
  | 0, s, buf => ⟨s, buf, []⟩
  | fuel + 1, s, buf =>
    if B + keep ≤ buf.length then
      let r1 := f s (buf.take B)
      let r2 := procChunks f B keep fuel r1.1 (buf.drop B)
      ⟨r2.st, r2.rest, r1.2 ++ r2.out⟩
    else ⟨s, buf, []⟩

/-- Canonical entry point: enough fuel to process the whole buffer. -/
def procF {σ : Type} (f : σ → List Nat → σ × List Nat) (B keep : Nat)
    (s : σ) (buf : List Nat) : PRes σ :=
  procChunks f B keep buf.length s buf

theorem procChunks_fuel {σ : Type} (f : σ → List Nat → σ × List Nat) (B keep : Nat)
    (hB : 1 ≤ B) :
    ∀ fuel fuel' (s : σ) (buf : List Nat), buf.length ≤ fuel → buf.length ≤ fuel' →
      procChunks f B keep fuel s buf = procChunks f B keep fuel' s buf := by
  intro fuel
  induction fuel with
  | zero =>
    intro fuel' s buf h h'
    have hb : buf = [] := List.length_eq_zero.mp (Nat.le_zero.mp h)
    subst hb
    cases fuel' with
    | zero => rfl
    | succ m =>
      simp only [procChunks, List.length_nil]
      rw [if_neg (by omega)]
  | succ m ih =>
    intro fuel' s buf h h'
    cases fuel' with
    | zero =>
      have hb : buf = [] := List.length_eq_zero.mp (Nat.le_zero.mp h')
      subst hb
      simp only [procChunks, List.length_nil]
      rw [if_neg (by omega)]
    | succ m' =>
      simp only [procChunks]
      by_cases hc : B + keep ≤ buf.length
      · rw [if_pos hc, if_pos hc]
        have hdrop : (buf.drop B).length ≤ m := by
          simp only [List.length_drop]; omega
        have hdrop' : (buf.drop B).length ≤ m' := by
          simp only [List.length_drop]; omega
        rw [ih m' _ _ hdrop hdrop']
      · rw [if_neg hc, if_neg hc]

theorem procF_stop {σ : Type} (f : σ → List Nat → σ × List Nat) (B keep : Nat)
    (s : σ) (buf : List Nat) (h : buf.length < B + keep) :
    procF f B keep s buf = ⟨s, buf, []⟩ := by
  unfold procF
  cases hb : buf.length with
  | zero => simp only [procChunks]
  | succ m =>
    simp only [procChunks]
    rw [if_neg (by omega)]

theorem procF_step {σ : Type} (f : σ → List Nat → σ × List Nat) (B keep : Nat)
    (hB : 1 ≤ B) (s : σ) (buf : List Nat) (h : B + keep ≤ buf.length) :
    procF f B keep s buf =
      let r1 := f s (buf.take B)
      let r2 := procF f B keep r1.1 (buf.drop B)
      ⟨r2.st, r2.rest, r1.2 ++ r2.out⟩ := by
  unfold procF
  cases hb : buf.length with
  | zero => omega
  | succ m =>
    simp only [procChunks]
    rw [if_pos (by omega)]
    have hdrop : (buf.drop B).length ≤ m := by
      simp only [List.length_drop]; omega
    rw [procChunks_fuel f B keep hB m (buf.drop B).length _ _ hdrop (Nat.le_refl _)]

/-- Processing a concatenated stream equals processing the pieces in sequence. -/
theorem procF_append {σ : Type} (f : σ → List Nat → σ × List Nat) (B keep : Nat)
    (hB : 1 ≤ B) :
    ∀ fuel (u v : List Nat) (s : σ), u.length ≤ fuel →
      procF f B keep s (u ++ v) =
        let r1 := procF f B keep s u
        let r2 := procF f B keep r1.st (r1.rest ++ v)
        ⟨r2.st, r2.rest, r1.out ++ r2.out⟩ := by
  intro fuel
  induction fuel with
  | zero =>
    intro u v s h
    have hu : u = [] := List.length_eq_zero.mp (Nat.le_zero.mp h)
    subst hu
    rw [procF_stop f B keep s [] (by simp; omega)]
    simp
  | succ m ih =>
    intro u v s h
    by_cases hc : B + keep ≤ u.length
    · have hcv : B + keep ≤ (u ++ v).length := by
        simp only [List.length_append]; omega
      rw [procF_step f B keep hB s (u ++ v) hcv, procF_step f B keep hB s u hc]
      have hBu : B ≤ u.length := by omega
      have htake : (u ++ v).take B = u.take B := List.take_append_of_le_length hBu
      have hdrop : (u ++ v).drop B = u.drop B ++ v := List.drop_append_of_le_length hBu
      simp only [htake, hdrop]
      have hlen : (u.drop B).length ≤ m := by
        simp only [List.length_drop]; omega
      rw [ih (u.drop B) v _ hlen]
      simp [List.append_assoc]
    · rw [procF_stop f B keep s u (by omega)]
      simp

/-- Sequential processing of a list of complete blocks, collecting per-block outputs. -/
def foldBlocks {σ : Type} (f : σ → List Nat → σ × List Nat) :
    σ → List (List Nat) → σ × List (List Nat)
  | s, [] => (s, [])
  | s, b :: bs =>
    let r1 := f s b
    let r2 := foldBlocks f r1.1 bs
    (r2.1, r1.2 :: r2.2)

/-- A stream made of complete `B`-blocks followed by a short tail is processed
block by block, leaving exactly the tail buffered. -/
theorem procF_blocks {σ : Type} (f : σ → List Nat → σ × List Nat) (B keep : Nat)
    (hB : 1 ≤ B) :
    ∀ (bs : List (List Nat)) (t : List Nat) (s : σ),
      (∀ b ∈ bs, b.length = B) → keep ≤ t.length → t.length < B + keep →
      procF f B keep s (bs.flatten ++ t) =
        ⟨(foldBlocks f s bs).1, t, (foldBlocks f s bs).2.flatten⟩ := by
  intro bs
  induction bs with
  | nil =>
    intro t s _ ht ht2
    simp only [List.flatten, List.nil_append, foldBlocks]
    exact procF_stop f B keep s t ht2
  | cons b bs ih =>
    intro t s hbs ht ht2
    have hbl : b.length = B := hbs b (by simp)
    have hlen : B + keep ≤ ((b :: bs).flatten ++ t).length := by
      simp only [List.flatten_cons, List.length_append, List.append_assoc]
      have : 0 ≤ bs.flatten.length := Nat.zero_le _
      omega
    rw [procF_step f B keep hB s _ hlen]
    have he1 : ((b :: bs).flatten ++ t).take B = b := by
      simp only [List.flatten_cons, List.append_assoc]
      rw [List.take_append_of_le_length (by omega), List.take_of_length_le (by omega)]
    have he2 : ((b :: bs).flatten ++ t).drop B = bs.flatten ++ t := by
      simp only [List.flatten_cons, List.append_assoc]
      rw [List.drop_append_of_le_length (by omega), List.drop_eq_nil_of_le (by omega)]
      simp
    simp only [he1, he2]
    rw [ih t (f s b).1 (fun x hx => hbs x (by simp [hx])) ht ht2]
    simp only [foldBlocks, List.flatten_cons]

/-- A streaming context: the engine-specific inner state plus the partial-block buffer
(`block`/`block_nbytes` in the C structs). -/
structure StreamSt (σ : Type) where
  inner : σ
  buf : List Nat
  deriving Repr

/-- One `update` call: append the data to the buffer and process complete blocks. -/
def streamUpd {σ : Type} (f : σ → List Nat → σ × List Nat) (B keep : Nat)
    (st : StreamSt σ) (data : List Nat) : StreamSt σ × List Nat :=
  let r := procF f B keep st.inner (st.buf ++ data)
  (⟨r.st, r.rest⟩, r.out)

theorem streamUpd_append {σ : Type} (f : σ → List Nat → σ × List Nat) (B keep : Nat)
    (hB : 1 ≤ B) (st : StreamSt σ) (a b : List Nat) :
    streamUpd f B keep st (a ++ b) =
      let r1 := streamUpd f B keep st a
      let r2 := streamUpd f B keep r1.1 b
      (r2.1, r1.2 ++ r2.2) := by
  simp only [streamUpd]
  rw [← List.append_assoc]
  rw [procF_append f B keep hB (st.buf ++ a).length (st.buf ++ a) b st.inner (Nat.le_refl _)]

/-- Feeding a sequence of `update` calls, concatenating all outputs. -/
def runChunks {τ : Type} (upd : τ → List Nat → τ × List Nat) :
    τ → List (List Nat) → τ × List Nat
  | st, [] => (st, [])
  | st, c :: cs =>
    let r1 := upd st c
    let r2 := runChunks upd r1.1 cs
    (r2.1, r1.2 ++ r2.2)

/-- The buffer left behind by processing is always shorter than `B + keep`:
the partial-block buffer invariant of every streaming struct. -/
theorem procChunks_rest_lt {σ : Type} (f : σ → List Nat → σ × List Nat) (B keep : Nat)
    (hB : 1 ≤ B) :
    ∀ fuel (s : σ) (buf : List Nat), buf.length ≤ fuel →
      (procChunks f B keep fuel s buf).rest.length < B + keep := by
  intro fuel
  induction fuel with
  | zero =>
    intro s buf h
    have hb : buf = [] := List.length_eq_zero.mp (Nat.le_zero.mp h)
    subst hb
    simp only [procChunks, List.length_nil]
    omega
  | succ m ih =>
    intro s buf h
    simp only [procChunks]
    by_cases hc : B + keep ≤ buf.length
    · rw [if_pos hc]
      exact ih _ _ (by simp only [List.length_drop]; omega)
    · rw [if_neg hc]
      show buf.length < B + keep
      omega

theorem procF_rest_lt {σ : Type} (f : σ → List Nat → σ × List Nat) (B keep : Nat)
    (hB : 1 ≤ B) (s : σ) (buf : List Nat) :
    (procF f B keep s buf).rest.length < B + keep :=
  procChunks_rest_lt f B keep hB _ s buf (Nat.le_refl _)

/-- Chunking invariance: on any state satisfying the buffer invariant, a sequence of
`update` calls is equivalent (same final state, same concatenated output) to a single
`update` of the concatenation. -/
theorem runChunks_join {σ : Type} (f : σ → List Nat → σ × List Nat) (B keep : Nat)
    (hB : 1 ≤ B) :
    ∀ (cs : List (List Nat)) (st : StreamSt σ), st.buf.length < B + keep →
      runChunks (streamUpd f B keep) st cs = streamUpd f B keep st cs.flatten := by
  intro cs
  induction cs with
  | nil =>
    intro st hst
    simp only [runChunks, List.flatten, streamUpd, List.append_nil]
    rw [procF_stop f B keep st.inner st.buf hst]
  | cons c cs ih =>
    intro st hst
    simp only [runChunks, List.flatten_cons]
    rw [streamUpd_append f B keep hB st c cs.flatten]
    simp only []
    rw [ih (streamUpd f B keep st c).1 (procF_rest_lt f B keep hB _ _)]

/-! ## Splitting a byte stream into blocks -/

/-- Split a list into consecutive `B`-byte chunks (the final chunk may be short). -/
def chunksOf (B : Nat) : Nat → List Nat → List (List Nat)
  | 0, _ => []
  | _ + 1, [] => []
  | fuel + 1, l => l.take B :: chunksOf B fuel (l.drop B)

/-- Canonical chunk splitting with enough fuel. -/
def chunksB (B : Nat) (l : List Nat) : List (List Nat) := chunksOf B l.length l

theorem chunksOf_fuel (B : Nat) (hB : 1 ≤ B) :
    ∀ fuel fuel' (l : List Nat), l.length ≤ fuel → l.length ≤ fuel' →
      chunksOf B fuel l = chunksOf B fuel' l := by
  intro fuel
  induction fuel with
  | zero =>
    intro fuel' l h h'
    have hl : l = [] := List.length_eq_zero.mp (Nat.le_zero.mp h)
    subst hl
    cases fuel' with
    | zero => rfl
    | succ m => rfl
  | succ m ih =>
    intro fuel' l h h'
    cases fuel' with
    | zero =>
      have hl : l = [] := List.length_eq_zero.mp (Nat.le_zero.mp h')
      subst hl
      rfl
    | succ m' =>
      cases l with
      | nil => rfl
      | cons a t =>
        show (a :: t).take B :: chunksOf B m ((a :: t).drop B) =
          (a :: t).take B :: chunksOf B m' ((a :: t).drop B)
        have hd : ((a :: t).drop B).length ≤ m := by
          simp only [List.length_drop, List.length_cons] at *
          omega
        have hd' : ((a :: t).drop B).length ≤ m' := by
          simp only [List.length_drop, List.length_cons] at *
          omega
        rw [ih m' _ hd hd']

theorem chunksB_nil (B : Nat) : chunksB B [] = [] := rfl

theorem chunksB_step (B : Nat) (hB : 1 ≤ B) (l : List Nat) (hl : l ≠ []) :
    chunksB B l = l.take B :: chunksB B (l.drop B) := by
  unfold chunksB
  cases l with
  | nil => exact absurd rfl hl
  | cons a t =>
    show (a :: t).take B :: chunksOf B t.length ((a :: t).drop B) =
      (a :: t).take B :: chunksOf B ((a :: t).drop B).length ((a :: t).drop B)
    have hd : ((a :: t).drop B).length ≤ t.length := by
      simp only [List.length_drop, List.length_cons]
      omega
    rw [chunksOf_fuel B hB t.length ((a :: t).drop B).length _ hd (Nat.le_refl _)]

/-- Prepending complete `B`-blocks to a stream prepends them to the chunk list. -/
theorem chunksB_flatten_append (B : Nat) (hB : 1 ≤ B) :
    ∀ (bs : List (List Nat)) (r : List Nat), (∀ b ∈ bs, b.length = B) →
      chunksB B (bs.flatten ++ r) = bs ++ chunksB B r := by
  intro bs
  induction bs with
  | nil => intro r _; simp
  | cons b bs ih =>
    intro r hbs
    have hbl : b.length = B := hbs b (by simp)
    have hne : (b :: bs).flatten ++ r ≠ [] := by
      simp only [List.flatten_cons, List.append_assoc, ne_eq, List.append_eq_nil]
      intro h
      have := congrArg List.length h.1
      simp [hbl] at this
      omega
    rw [chunksB_step B hB _ hne]
    simp only [List.flatten_cons, List.append_assoc]
    rw [List.take_append_of_le_length (by omega), List.take_of_length_le (by omega),
      List.drop_append_of_le_length (by omega), List.drop_eq_nil_of_le (by omega)]
    simp only [List.nil_append, List.cons_append, List.cons.injEq, true_and]
    exact ih r (fun x hx => hbs x (by simp [hx]))

theorem chunksB_all_length (B : Nat) (hB : 1 ≤ B) :
    ∀ fuel (l : List Nat), l.length ≤ fuel → B ∣ l.length →
      ∀ c ∈ chunksB B l, c.length = B := by
  intro fuel
  induction fuel with
  | zero =>
    intro l h _ c hc
    have hl : l = [] := List.length_eq_zero.mp (Nat.le_zero.mp h)
    subst hl
    simp [chunksB_nil] at hc
  | succ m ih =>
    intro l h hdvd c hc
    cases hl : l with
    | nil => subst hl; simp [chunksB_nil] at hc
    | cons a t =>
      subst hl
      rw [chunksB_step B hB _ (by simp)] at hc
      have hlen : B ≤ (a :: t).length := by
        rcases hdvd with ⟨k, hk⟩
        cases k with
        | zero => rw [Nat.mul_zero] at hk; simp at hk
        | succ k' =>
          rw [hk]
          calc B = B * 1 := (Nat.mul_one B).symm
            _ ≤ B * (k' + 1) := Nat.mul_le_mul_left B (by omega)
      rcases List.mem_cons.mp hc with rfl | hc
      · rw [List.length_take]
        exact Nat.min_eq_left hlen
      · refine ih ((a :: t).drop B) ?_ ?_ c hc
        · have h1 : ((a :: t).drop B).length = (a :: t).length - B := List.length_drop _ _
          have h2 : (a :: t).length ≤ m + 1 := h
          have h3 : (a :: t).length = t.length + 1 := List.length_cons _ _
          omega
        · rw [List.length_drop]
          exact Nat.dvd_sub' hdvd (Dvd.intro 1 (by omega))

theorem flatten_chunksB (B : Nat) (hB : 1 ≤ B) :
    ∀ fuel (l : List Nat), l.length ≤ fuel → (chunksB B l).flatten = l := by
  intro fuel
  induction fuel with
  | zero =>
    intro l h
    have hl : l = [] := List.length_eq_zero.mp (Nat.le_zero.mp h)
    subst hl; rfl
  | succ m ih =>
    intro l h
    cases hl : l with
    | nil => subst hl; rfl
    | cons a t =>
      subst hl
      rw [chunksB_step B hB _ (by simp)]
      simp only [List.flatten_cons]
      rw [ih _ (by simp only [List.length_drop, List.length_cons] at *; omega)]
      exact List.take_append_drop B (a :: t)

theorem flatten_length_of_blocks (B : Nat) :
    ∀ (bs : List (List Nat)), (∀ b ∈ bs, b.length = B) →
      bs.flatten.length = B * bs.length := by
  intro bs
  induction bs with
  | nil => intro _; simp
  | cons b bs ih =>
    intro h
    simp only [List.flatten_cons, List.length_append, List.length_cons]
    rw [h b (by simp), ih (fun x hx => h x (by simp [hx]))]
    ring

/-! ## SM3 hash engine

Modelled from the spec (§4.1): the SM3 compression function is not part of the
Python sources (it lives in the native library); it is implemented here from the
standard that the spec's test vectors reference: Merkle–Damgård over 64-byte
blocks, message expansion to 68 words, 64 rounds with FF/GG boolean functions and
round constants `Tj`, padding `0x80`, zeros, 64-bit big-endian bit length. -/

/-- SM3 compression state: eight 32-bit words. -/
abbrev Sm3V := Nat × Nat × Nat × Nat × Nat × Nat × Nat × Nat

/-- Modelled from the spec: "the standard SM3 initial-vector constants". -/
def sm3IVv : Sm3V :=
  (0x7380166f, 0x4914b2b9, 0x172442d7, 0xda8a0600,
   0xa96f30bc, 0x163138aa, 0xe38dee4d, 0xb0fb0e4e)

def sm3P0 (x : Nat) : Nat := x ^^^ rotl32 x 9 ^^^ rotl32 x 17

def sm3P1 (x : Nat) : Nat := x ^^^ rotl32 x 15 ^^^ rotl32 x 23

def sm3T (j : Nat) : Nat := if j < 16 then 0x79cc4519 else 0x7a879d8a

def sm3FF (j a b c : Nat) : Nat :=
  if j < 16 then a ^^^ b ^^^ c else (a &&& b) ||| (a &&& c) ||| (b &&& c)

def sm3GG (j e f g : Nat) : Nat :=
  if j < 16 then e ^^^ f ^^^ g else (e &&& f) ||| ((e ^^^ 0xffffffff) &&& g)

/-- The sixteen big-endian message words of a 64-byte block. -/
def sm3MsgWords (blk : List Nat) : List Nat :=
  (List.range 16).map fun i =>
    wordOfBytes (blk.getD (4 * i) 0) (blk.getD (4 * i + 1) 0)
      (blk.getD (4 * i + 2) 0) (blk.getD (4 * i + 3) 0)

/-- Message expansion: extend the word list one word at a time (up to 68). -/
def sm3Expand : Nat → List Nat → List Nat
  | 0, ws => ws
  | fuel + 1, ws =>
    let j := ws.length
    let w := sm3P1 (ws.getD (j - 16) 0 ^^^ ws.getD (j - 9) 0 ^^^
        rotl32 (ws.getD (j - 3) 0) 15) ^^^ rotl32 (ws.getD (j - 13) 0) 7 ^^^ ws.getD (j - 6) 0
    sm3Expand fuel (ws ++ [w])

def sm3W (blk : List Nat) : List Nat := sm3Expand 52 (sm3MsgWords blk)

/-- One SM3 round. -/
def sm3Round (w w4 j : Nat) (v : Sm3V) : Sm3V :=
  let (a, b, c, d, e, f, g, h) := v
  let a12 := rotl32 a 12
  let ss1 := rotl32 ((a12 + e + rotl32 (sm3T j) (j % 32)) % 2 ^ 32) 7
  let ss2 := ss1 ^^^ a12
  let tt1 := (sm3FF j a b c + d + ss2 + (w ^^^ w4)) % 2 ^ 32
  let tt2 := (sm3GG j e f g + h + ss1 + w) % 2 ^ 32
  (tt1, a, rotl32 b 9, c, sm3P0 tt2, e, rotl32 f 19, g)

/-- The SM3 compression function on one 64-byte block. -/
def sm3CF (v : Sm3V) (blk : List Nat) : Sm3V :=
  let ws := sm3W blk
  let r := (List.range 64).foldl (fun st j => sm3Round (ws.getD j 0) (ws.getD (j + 4) 0) j st) v
  (r.1 ^^^ v.1, r.2.1 ^^^ v.2.1, r.2.2.1 ^^^ v.2.2.1, r.2.2.2.1 ^^^ v.2.2.2.1,
   r.2.2.2.2.1 ^^^ v.2.2.2.2.1, r.2.2.2.2.2.1 ^^^ v.2.2.2.2.2.1,
   r.2.2.2.2.2.2.1 ^^^ v.2.2.2.2.2.2.1, r.2.2.2.2.2.2.2 ^^^ v.2.2.2.2.2.2.2)

/-- 64-bit big-endian length field. -/
def lenBytes8 (n : Nat) : List Nat :=
  (List.range 8).map fun i => n / 2 ^ (8 * (7 - i)) % 256

/-- Merkle–Damgård padding for a message of `len` bytes. -/
def sm3Pad (len : Nat) : List Nat :=
  0x80 :: (List.replicate ((64 - (len + 9) % 64) % 64) 0 ++ lenBytes8 (8 * len))

theorem sm3Pad_length (len : Nat) : (sm3Pad len).length = ((64 - (len + 9) % 64) % 64) + 9 := by
  simp [sm3Pad, lenBytes8]

theorem sm3Pad_total (len : Nat) : 64 ∣ (len + (sm3Pad len).length) := by
  rw [sm3Pad_length]
  omega

/-- Big-endian serialization of the SM3 state: the 32-byte digest. -/
def sm3DigestBytes (v : Sm3V) : List Nat :=
  bytesOfWord v.1 ++ bytesOfWord v.2.1 ++ bytesOfWord v.2.2.1 ++ bytesOfWord v.2.2.2.1 ++
  bytesOfWord v.2.2.2.2.1 ++ bytesOfWord v.2.2.2.2.2.1 ++ bytesOfWord v.2.2.2.2.2.2.1 ++
  bytesOfWord v.2.2.2.2.2.2.2

theorem sm3DigestBytes_length (v : Sm3V) : (sm3DigestBytes v).length = 32 := by
  simp [sm3DigestBytes, bytesOfWord]

/-- One-shot SM3 hash of a byte string. -/
def sm3Hash (M : List Nat) : List Nat :=
  sm3DigestBytes ((chunksB 64 (M ++ sm3Pad M.length)).foldl sm3CF sm3IVv)

theorem sm3Hash_length (M : List Nat) : (sm3Hash M).length = 32 :=
  sm3DigestBytes_length _

/-! Streaming SM3 (`Sm3.__init__` / `update` / `digest` in gmssl.py): the struct
keeps the compressed state, the processed-block counter `nblocks`, and the
partial-block buffer. -/

/-- Per-block action of `sm3_update`: compress, count the block, no output. -/
def sm3StepF : (Sm3V × Nat) → List Nat → (Sm3V × Nat) × List Nat :=
  fun vn blk => ((sm3CF vn.1 blk, vn.2 + 1), [])

/-- A fresh `Sm3()` object (`sm3_init`). -/
def sm3New : StreamSt (Sm3V × Nat) := ⟨(sm3IVv, 0), []⟩

/-- `Sm3.update`: gmssl's `sm3_update` (returns no bytes). -/
def sm3Update (st : StreamSt (Sm3V × Nat)) (data : List Nat) : StreamSt (Sm3V × Nat) :=
  (streamUpd sm3StepF 64 0 st data).1

/-- `Sm3.digest`: gmssl's `sm3_finish` — pad using the total length and
compress the remaining buffer. -/
def sm3Digest (st : StreamSt (Sm3V × Nat)) : List Nat :=
  sm3DigestBytes ((chunksB 64 (st.buf ++ sm3Pad (st.inner.2 * 64 + st.buf.length))).foldl
    sm3CF st.inner.1)

/-! ## SM4 block cipher

Modelled from the spec (§4.2): 128-bit block, 128-bit key, 32 Feistel-like rounds
with an 8-bit S-box and a linear diffusion transform, final reverse-word-order step;
decryption runs the same rounds with the round keys in reverse order.  The spec
describes the S-box only as "an 8-bit nonlinear table", so the whole development is
parameterized by an arbitrary byte substitution `sbox` (applied mod 256); every
theorem below holds for every such table, hence for the standard one. -/

theorem cons_of_length {α : Type} (l : List α) (n : Nat) (h : l.length = n + 1) :
    ∃ a t, l = a :: t ∧ t.length = n := by
  cases l with
  | nil => simp at h
  | cons a t => exact ⟨a, t, rfl, by simpa using h⟩

theorem xor3_rot (b c d : Nat) : d ^^^ c ^^^ b = b ^^^ c ^^^ d := by
  rw [Nat.xor_assoc, Nat.xor_assoc, Nat.xor_comm d (c ^^^ b), Nat.xor_comm c b,
    Nat.xor_assoc]

/-- A quadruple of 32-bit words. -/
abbrev Sm4Q := Nat × Nat × Nat × Nat

/-- All four words are 32-bit. -/
def qlt (q : Sm4Q) : Prop :=
  q.1 < 2 ^ 32 ∧ q.2.1 < 2 ^ 32 ∧ q.2.2.1 < 2 ^ 32 ∧ q.2.2.2 < 2 ^ 32

/-- The nonlinear byte substitution τ: the S-box applied to each byte of the word. -/
def sm4Tau (sbox : Nat → Nat) (x : Nat) : Nat :=
  wordOfBytes (sbox (x / 2 ^ 24 % 256)) (sbox (x / 2 ^ 16 % 256))
    (sbox (x / 2 ^ 8 % 256)) (sbox (x % 256))

/-- The linear diffusion transform L of the round function. -/
def sm4L (x : Nat) : Nat :=
  x ^^^ rotl32 x 2 ^^^ rotl32 x 10 ^^^ rotl32 x 18 ^^^ rotl32 x 24

/-- The linear transform L' of the key schedule. -/
def sm4LP (x : Nat) : Nat := x ^^^ rotl32 x 13 ^^^ rotl32 x 23

def sm4T (sbox : Nat → Nat) (x : Nat) : Nat := sm4L (sm4Tau sbox x)

def sm4TP (sbox : Nat → Nat) (x : Nat) : Nat := sm4LP (sm4Tau sbox x)

theorem sm4Tau_lt (sbox : Nat → Nat) (x : Nat) : sm4Tau sbox x < 2 ^ 32 :=
  wordOfBytes_lt _ _ _ _

theorem rotl32_lt (x n : Nat) : rotl32 x n < 2 ^ 32 :=
  Nat.mod_lt _ (by norm_num)

theorem sm4T_lt (sbox : Nat → Nat) (x : Nat) : sm4T sbox x < 2 ^ 32 := by
  unfold sm4T sm4L
  have h0 := sm4Tau_lt sbox x
  have h1 := rotl32_lt (sm4Tau sbox x) 2
  have h2 := rotl32_lt (sm4Tau sbox x) 10
  have h3 := rotl32_lt (sm4Tau sbox x) 18
  have h4 := rotl32_lt (sm4Tau sbox x) 24
  exact Nat.xor_lt_two_pow (Nat.xor_lt_two_pow (Nat.xor_lt_two_pow
    (Nat.xor_lt_two_pow h0 h1) h2) h3) h4

/-- One SM4 round: `(a,b,c,d) ↦ (b,c,d, a ⊕ T(b ⊕ c ⊕ d ⊕ rk))`. -/
def sm4RoundQ (sbox : Nat → Nat) (q : Sm4Q) (rk : Nat) : Sm4Q :=
  (q.2.1, q.2.2.1, q.2.2.2, q.1 ^^^ sm4T sbox (q.2.1 ^^^ q.2.2.1 ^^^ q.2.2.2 ^^^ rk))

def sm4Rounds (sbox : Nat → Nat) (rks : List Nat) (q : Sm4Q) : Sm4Q :=
  rks.foldl (sm4RoundQ sbox) q

/-- Reverse word order (the final step R of SM4). -/
def rev4 (q : Sm4Q) : Sm4Q := (q.2.2.2, q.2.2.1, q.2.1, q.1)

theorem rev4_rev4 (q : Sm4Q) : rev4 (rev4 q) = q := rfl

theorem sm4RoundQ_lt (sbox : Nat → Nat) (q : Sm4Q) (rk : Nat) (h : qlt q) :
    qlt (sm4RoundQ sbox q rk) := by
  obtain ⟨h1, h2, h3, h4⟩ := h
  refine ⟨h2, h3, h4, ?_⟩
  exact Nat.xor_lt_two_pow h1 (sm4T_lt _ _)

theorem sm4Rounds_lt (sbox : Nat → Nat) (rks : List Nat) (q : Sm4Q) (h : qlt q) :
    qlt (sm4Rounds sbox rks q) := by
  induction rks generalizing q with
  | nil => exact h
  | cons k ks ih => exact ih _ (sm4RoundQ_lt sbox q k h)

theorem rev4_lt (q : Sm4Q) (h : qlt q) : qlt (rev4 q) := by
  obtain ⟨h1, h2, h3, h4⟩ := h
  exact ⟨h4, h3, h2, h1⟩

/-- The single-round inversion identity behind SM4 decryption. -/
theorem sm4RoundQ_inv (sbox : Nat → Nat) (q : Sm4Q) (rk : Nat) :
    sm4RoundQ sbox (rev4 (sm4RoundQ sbox q rk)) rk = rev4 q := by
  obtain ⟨a, b, c, d⟩ := q
  simp only [sm4RoundQ, rev4]
  refine Prod.ext rfl (Prod.ext rfl (Prod.ext rfl ?_))
  show a ^^^ sm4T sbox (b ^^^ c ^^^ d ^^^ rk) ^^^ sm4T sbox (d ^^^ c ^^^ b ^^^ rk) = a
  rw [xor3_rot d c b, Nat.xor_assoc, Nat.xor_self, Nat.xor_zero]

/-- Running the rounds with reversed round keys undoes the rounds (up to the
word-order reversal R). -/
theorem sm4Rounds_inv (sbox : Nat → Nat) (rks : List Nat) :
    ∀ q : Sm4Q, sm4Rounds sbox rks.reverse (rev4 (sm4Rounds sbox rks q)) = rev4 q := by
  induction rks with
  | nil => intro q; rfl
  | cons k ks ih =>
    intro q
    show sm4Rounds sbox (k :: ks).reverse (rev4 (sm4Rounds sbox ks (sm4RoundQ sbox q k))) =
      rev4 q
    rw [List.reverse_cons]
    unfold sm4Rounds
    rw [List.foldl_append]
    show sm4RoundQ sbox (sm4Rounds sbox ks.reverse (rev4 (sm4Rounds sbox ks
      (sm4RoundQ sbox q k)))) k = rev4 q
    rw [ih (sm4RoundQ sbox q k), sm4RoundQ_inv]

/-- Big-endian load of a 16-byte block into four words. -/
def toQuad (l : List Nat) : Sm4Q :=
  match l with
  | [b0, b1, b2, b3, b4, b5, b6, b7, b8, b9, b10, b11, b12, b13, b14, b15] =>
    (wordOfBytes b0 b1 b2 b3, wordOfBytes b4 b5 b6 b7,
     wordOfBytes b8 b9 b10 b11, wordOfBytes b12 b13 b14 b15)
  | _ => (0, 0, 0, 0)

/-- Big-endian store of four words into a 16-byte block. -/
def ofQuad (q : Sm4Q) : List Nat :=
  bytesOfWord q.1 ++ bytesOfWord q.2.1 ++ bytesOfWord q.2.2.1 ++ bytesOfWord q.2.2.2

theorem ofQuad_length (q : Sm4Q) : (ofQuad q).length = 16 := by
  simp [ofQuad, bytesOfWord]

theorem ofQuad_allBytes (q : Sm4Q) : allBytes (ofQuad q) := by
  intro b hb
  simp only [ofQuad, List.mem_append] at hb
  rcases hb with ((hb | hb) | hb) | hb <;> exact bytesOfWord_allBytes _ b hb

theorem toQuad_lt (l : List Nat) : qlt (toQuad l) := by
  unfold toQuad
  split
  · exact ⟨wordOfBytes_lt _ _ _ _, wordOfBytes_lt _ _ _ _,
      wordOfBytes_lt _ _ _ _, wordOfBytes_lt _ _ _ _⟩
  · exact ⟨by norm_num, by norm_num, by norm_num, by norm_num⟩

theorem toQuad_ofQuad (q : Sm4Q) (h : qlt q) : toQuad (ofQuad q) = q := by
  obtain ⟨a, b, c, d⟩ := q
  obtain ⟨h1, h2, h3, h4⟩ := h
  show toQuad (bytesOfWord a ++ bytesOfWord b ++ bytesOfWord c ++ bytesOfWord d) = _
  simp only [bytesOfWord, List.cons_append, List.nil_append, toQuad]
  rw [wordOfBytes_bytesOfWord a h1, wordOfBytes_bytesOfWord b h2,
    wordOfBytes_bytesOfWord c h3, wordOfBytes_bytesOfWord d h4]

theorem ofQuad_toQuad (l : List Nat) (hl : l.length = 16) (hb : allBytes l) :
    ofQuad (toQuad l) = l := by
  obtain ⟨b0, l0, rfl, hl0⟩ := cons_of_length l 15 hl
  obtain ⟨b1, l1, rfl, hl1⟩ := cons_of_length l0 14 hl0
  obtain ⟨b2, l2, rfl, hl2⟩ := cons_of_length l1 13 hl1
  obtain ⟨b3, l3, rfl, hl3⟩ := cons_of_length l2 12 hl2
  obtain ⟨b4, l4, rfl, hl4⟩ := cons_of_length l3 11 hl3
  obtain ⟨b5, l5, rfl, hl5⟩ := cons_of_length l4 10 hl4
  obtain ⟨b6, l6, rfl, hl6⟩ := cons_of_length l5 9 hl5
  obtain ⟨b7, l7, rfl, hl7⟩ := cons_of_length l6 8 hl6
  obtain ⟨b8, l8, rfl, hl8⟩ := cons_of_length l7 7 hl7
  obtain ⟨b9, l9, rfl, hl9⟩ := cons_of_length l8 6 hl8
  obtain ⟨b10, l10, rfl, hl10⟩ := cons_of_length l9 5 hl9
  obtain ⟨b11, l11, rfl, hl11⟩ := cons_of_length l10 4 hl10
  obtain ⟨b12, l12, rfl, hl12⟩ := cons_of_length l11 3 hl11
  obtain ⟨b13, l13, rfl, hl13⟩ := cons_of_length l12 2 hl12
  obtain ⟨b14, l14, rfl, hl14⟩ := cons_of_length l13 1 hl13
  obtain ⟨b15, l15, rfl, hl15⟩ := cons_of_length l14 0 hl14
  have hnil : l15 = [] := List.length_eq_zero.mp hl15
  subst hnil
  have H0 : b0 < 256 := hb b0 (by simp)
  have H1 : b1 < 256 := hb b1 (by simp)
  have H2 : b2 < 256 := hb b2 (by simp)
  have H3 : b3 < 256 := hb b3 (by simp)
  have H4 : b4 < 256 := hb b4 (by simp)
  have H5 : b5 < 256 := hb b5 (by simp)
  have H6 : b6 < 256 := hb b6 (by simp)
  have H7 : b7 < 256 := hb b7 (by simp)
  have H8 : b8 < 256 := hb b8 (by simp)
  have H9 : b9 < 256 := hb b9 (by simp)
  have H10 : b10 < 256 := hb b10 (by simp)
  have H11 : b11 < 256 := hb b11 (by simp)
  have H12 : b12 < 256 := hb b12 (by simp)
  have H13 : b13 < 256 := hb b13 (by simp)
  have H14 : b14 < 256 := hb b14 (by simp)
  have H15 : b15 < 256 := hb b15 (by simp)
  simp only [toQuad, ofQuad]
  rw [bytesOfWord_wordOfBytes b0 b1 b2 b3 H0 H1 H2 H3,
    bytesOfWord_wordOfBytes b4 b5 b6 b7 H4 H5 H6 H7,
    bytesOfWord_wordOfBytes b8 b9 b10 b11 H8 H9 H10 H11,
    bytesOfWord_wordOfBytes b12 b13 b14 b15 H12 H13 H14 H15]
  rfl

/-- Modelled from the spec: `sm4_encrypt` — apply the 32 rounds with the stored key
schedule and reverse the word order.  With a schedule stored in reverse order (as
`sm4_set_decrypt_key` does) the same function decrypts. -/
def sm4Apply (sbox : Nat → Nat) (rks : List Nat) (b : List Nat) : List Nat :=
  ofQuad (rev4 (sm4Rounds sbox rks (toQuad b)))

theorem sm4Apply_length (sbox : Nat → Nat) (rks b : List Nat) :
    (sm4Apply sbox rks b).length = 16 := ofQuad_length _

theorem sm4Apply_allBytes (sbox : Nat → Nat) (rks b : List Nat) :
    allBytes (sm4Apply sbox rks b) := ofQuad_allBytes _

/-- SM4 block-level inversion: applying the cipher with reversed round keys
undoes it, for every S-box and key schedule. -/
theorem sm4Apply_inv (sbox : Nat → Nat) (rks : List Nat) (b : List Nat)
    (hl : b.length = 16) (hb : allBytes b) :
    sm4Apply sbox rks.reverse (sm4Apply sbox rks b) = b := by
  unfold sm4Apply
  rw [toQuad_ofQuad _ (rev4_lt _ (sm4Rounds_lt sbox rks _ (toQuad_lt b))),
    sm4Rounds_inv sbox rks (toQuad b), rev4_rev4, ofQuad_toQuad b hl hb]

/-- Modelled from the spec: the SM4 key-schedule constants FK of the standard. -/
def sm4FKq : Sm4Q := (0xa3b1bac6, 0x56aa3350, 0x677d9197, 0xb27022dc)

/-- Modelled from the spec: the SM4 key-schedule constants CK of the standard,
`ck(i) = bytes (4i+j)·7 mod 256`. -/
def sm4CK (i : Nat) : Nat :=
  wordOfBytes ((4 * i) * 7 % 256) ((4 * i + 1) * 7 % 256)
    ((4 * i + 2) * 7 % 256) ((4 * i + 3) * 7 % 256)

/-- Modelled from the spec: the SM4 key expansion — 32 key-schedule rounds of the
4-word nonlinear transform reusing the S-box. -/
def sm4KeyLoop (sbox : Nat → Nat) : Nat → Nat → Sm4Q → List Nat
  | 0, _, _ => []
  | fuel + 1, i, q =>
    let rk := q.1 ^^^ sm4TP sbox (q.2.1 ^^^ q.2.2.1 ^^^ q.2.2.2 ^^^ sm4CK i)
    rk :: sm4KeyLoop sbox fuel (i + 1) (q.2.1, q.2.2.1, q.2.2.2, rk)

/-- Modelled from the spec: `sm4_set_encrypt_key` — derive the 32 round keys. -/
def sm4KeySched (sbox : Nat → Nat) (key : List Nat) : List Nat :=
  let mk := toQuad key
  sm4KeyLoop sbox 32 0
    (mk.1 ^^^ sm4FKq.1, mk.2.1 ^^^ sm4FKq.2.1, mk.2.2.1 ^^^ sm4FKq.2.2.1,
     mk.2.2.2 ^^^ sm4FKq.2.2.2)

/-! ## Auxiliary 128-bit conversions -/

/-- Big-endian 16-byte representation of a 128-bit number. -/
def natToBytes16 (n : Nat) : List Nat :=
  (List.range 16).map fun i => n / 2 ^ (8 * (15 - i)) % 256

/-- Big-endian number of a byte string. -/
def bytesToNat (l : List Nat) : Nat := l.foldl (fun a b => a * 256 + b % 256) 0

theorem natToBytes16_length (n : Nat) : (natToBytes16 n).length = 16 := by
  simp [natToBytes16]

/-! ## Sm4Cbc (gmssl.py lines 132-175)

The wrapper validates key/IV lengths, stores the direction flag, and defers to the
engine.  The engine (`sm4_cbc_encrypt_update` …) is modelled from the spec (§4.3):
XOR-chain with the previous ciphertext block (IV first), PKCS-style padding added at
encrypt finish and validated/stripped at decrypt finish; decrypt update keeps the
last complete block buffered for the finish step. -/

/-- Modelled from the spec: one CBC encryption block step; the ciphertext block is
both the output and the next chaining value. -/
def cbcEncStep (sbox : Nat → Nat) (rks : List Nat) (iv b : List Nat) :
    List Nat × List Nat :=
  let c := sm4Apply sbox rks (xorB iv b)
  (c, c)

/-- Modelled from the spec: one CBC decryption block step. -/
def cbcDecStep (sbox : Nat → Nat) (rks : List Nat) (iv c : List Nat) :
    List Nat × List Nat :=
  (c, xorB (sm4Apply sbox rks c) iv)

structure Sm4CbcSt where
  rks : List Nat
  encdir : Bool
  core : StreamSt (List Nat)

/-- `Sm4Cbc.__init__`: validate lengths, then let the engine set up the key
schedule (decryption stores the reversed schedule, as `sm4_set_decrypt_key` does). -/
def sm4CbcNew (sbox : Nat → Nat) (key iv : List Nat) (encrypt : Bool) :
    Except GmErr Sm4CbcSt :=
  if key.length ≠ 16 then .error (.valueError "Invalid key length")
  else if iv.length ≠ 16 then .error (.valueError "Invalid IV size")
  else if encrypt then .ok ⟨sm4KeySched sbox key, true, ⟨iv, []⟩⟩
  else .ok ⟨(sm4KeySched sbox key).reverse, false, ⟨iv, []⟩⟩

/-- `Sm4Cbc.update`: branch on the stored direction flag. -/
def sm4CbcUpd (sbox : Nat → Nat) (st : Sm4CbcSt) (data : List Nat) :
    Sm4CbcSt × List Nat :=
  if st.encdir then
    let r := streamUpd (cbcEncStep sbox st.rks) 16 0 st.core data
    (⟨st.rks, st.encdir, r.1⟩, r.2)
  else
    let r := streamUpd (cbcDecStep sbox st.rks) 16 1 st.core data
    (⟨st.rks, st.encdir, r.1⟩, r.2)

/-- `Sm4Cbc.finish`: on encrypt, pad the remaining bytes (pad value = number of
padding bytes, 1–16) and emit one final block; on decrypt, require a full block,
decrypt it, validate and strip the padding — any engine failure surfaces as the
generic `InnerError`. -/
def sm4CbcFin (sbox : Nat → Nat) (st : Sm4CbcSt) : Except GmErr (List Nat) :=
  if st.encdir then
    let p := 16 - st.core.buf.length
    .ok (cbcEncStep sbox st.rks st.core.inner (st.core.buf ++ List.replicate p p)).2
  else
    if st.core.buf.length ≠ 16 then .error genericInnerError
    else
      let pt := xorB (sm4Apply sbox st.rks st.core.buf) st.core.inner
      let p := pt.getD 15 0
      if 1 ≤ p ∧ p ≤ 16 ∧ pt.drop (16 - p) = List.replicate p p then
        .ok (pt.take (16 - p))
      else .error genericInnerError

/-- One-shot CBC encryption: init, one update, finish, concatenating the outputs. -/
def sm4CbcEncryptMsg (sbox : Nat → Nat) (key iv M : List Nat) : Except GmErr (List Nat) :=
  match sm4CbcNew sbox key iv true with
  | .error e => .error e
  | .ok st =>
    let r := sm4CbcUpd sbox st M
    match sm4CbcFin sbox r.1 with
    | .error e => .error e
    | .ok fin => .ok (r.2 ++ fin)

/-- One-shot CBC decryption. -/
def sm4CbcDecryptMsg (sbox : Nat → Nat) (key iv C : List Nat) : Except GmErr (List Nat) :=
  match sm4CbcNew sbox key iv false with
  | .error e => .error e
  | .ok st =>
    let r := sm4CbcUpd sbox st C
    match sm4CbcFin sbox r.1 with
    | .error e => .error e
    | .ok fin => .ok (r.2 ++ fin)

/-! ## Sm4Ctr (gmssl.py lines 182-211)

Modelled from the spec (§4.4): XOR with the SM4 encryption of an incrementing
128-bit big-endian counter (wraparound), partial blocks carried in a buffer;
encryption and decryption are the same operation. -/

/-- Modelled from the spec: one CTR block step. -/
def ctrStep (sbox : Nat → Nat) (rks : List Nat) (c : Nat) (b : List Nat) :
    Nat × List Nat :=
  ((c + 1) % 2 ^ 128, xorB (sm4Apply sbox rks (natToBytes16 c)) b)

structure Sm4CtrSt where
  rks : List Nat
  core : StreamSt Nat

/-- `Sm4Ctr.__init__`. -/
def sm4CtrNew (sbox : Nat → Nat) (key iv : List Nat) : Except GmErr Sm4CtrSt :=
  if key.length ≠ 16 then .error (.valueError "Invalid key length")
  else if iv.length ≠ 16 then .error (.valueError "Invalid IV size")
  else .ok ⟨sm4KeySched sbox key, ⟨bytesToNat iv, []⟩⟩

/-- `Sm4Ctr.update`. -/
def sm4CtrUpd (sbox : Nat → Nat) (st : Sm4CtrSt) (data : List Nat) :
    Sm4CtrSt × List Nat :=
  let r := streamUpd (ctrStep sbox st.rks) 16 0 st.core data
  (⟨st.rks, r.1⟩, r.2)

/-- `Sm4Ctr.finish`: flush the buffered partial block against the current
counter's keystream (never fails on content grounds). -/
def sm4CtrFin (sbox : Nat → Nat) (st : Sm4CtrSt) : List Nat :=
  xorB (sm4Apply sbox st.rks (natToBytes16 st.core.inner)) st.core.buf

/-- One-shot CTR processing (encryption and decryption alike). -/
def sm4CtrMsg (sbox : Nat → Nat) (key iv M : List Nat) : Except GmErr (List Nat) :=
  match sm4CtrNew sbox key iv with
  | .error e => .error e
  | .ok st =>
    let r := sm4CtrUpd sbox st M
    .ok (r.2 ++ sm4CtrFin sbox r.1)

/-! ## Zuc (gmssl.py lines 224-252)

The wrapper validates 16-byte key and IV; the engine (modelled from the spec §4.6)
XORs a key/IV-determined keystream against the input, processing complete 4-byte
words and buffering the remainder.  The keystream generator itself (LFSR over
GF(2^31−1) plus nonlinear function) is abstracted as an arbitrary byte-indexed
function `ks`, determined by key and IV — which is all the claims depend on. -/

/-- Modelled from the spec: one ZUC word step at keystream byte position `i`. -/
def zucStep (ks : Nat → Nat) (i : Nat) (b : List Nat) : Nat × List Nat :=
  (i + 4, xorKs ks i b)

/-- `Zuc.__init__`. -/
def zucNew (key iv : List Nat) : Except GmErr (StreamSt Nat) :=
  if key.length ≠ 16 then .error (.valueError "Invalid key length")
  else if iv.length ≠ 16 then .error (.valueError "Invalid IV size")
  else .ok ⟨0, []⟩

/-- `Zuc.update`. -/
def zucUpd (ks : Nat → Nat) (st : StreamSt Nat) (data : List Nat) :
    StreamSt Nat × List Nat :=
  streamUpd (zucStep ks) 4 0 st data

/-- `Zuc.finish`: flush the partial word. -/
def zucFin (ks : Nat → Nat) (st : StreamSt Nat) : List Nat :=
  xorKs ks st.inner st.buf

/-- One-shot ZUC processing with the keystream of the given key/IV. -/
def zucMsg (ks : Nat → Nat) (key iv M : List Nat) : Except GmErr (List Nat) :=
  match zucNew key iv with
  | .error e => .error e
  | .ok st =>
    let r := zucUpd ks st M
    .ok (r.2 ++ zucFin ks r.1)

/-! ## Round-trip lemmas -/

theorem take_blocks_props (B : Nat) (hB : 1 ≤ B) (M : List Nat) :
    (∀ b ∈ chunksB B (M.take (B * (M.length / B))), b.length = B) ∧
    (chunksB B (M.take (B * (M.length / B)))).flatten = M.take (B * (M.length / B)) ∧
    (M.drop (B * (M.length / B))).length < B := by
  have hk : B * (M.length / B) ≤ M.length := by
    rw [Nat.mul_comm]
    exact Nat.div_mul_le_self M.length B
  have htl : (M.take (B * (M.length / B))).length = B * (M.length / B) := by
    rw [List.length_take]
    exact Nat.min_eq_left hk
  refine ⟨?_, ?_, ?_⟩
  · refine chunksB_all_length B hB _ _ (Nat.le_refl _) ?_
    rw [htl]
    exact Dvd.intro _ rfl
  · exact flatten_chunksB B hB _ _ (Nat.le_refl _)
  · rw [List.length_drop]
    have hdm := Nat.div_add_mod M.length B
    have hmod : M.length % B < B := Nat.mod_lt _ (by omega)
    omega

/-- One `update` call on a fresh (empty-buffer) state, in closed form: process the
complete blocks of the message and buffer the remainder. -/
theorem procF_message {σ : Type} (f : σ → List Nat → σ × List Nat) (B : Nat) (hB : 1 ≤ B)
    (s : σ) (M : List Nat) :
    procF f B 0 s M =
      ⟨(foldBlocks f s (chunksB B (M.take (B * (M.length / B))))).1,
       M.drop (B * (M.length / B)),
       (foldBlocks f s (chunksB B (M.take (B * (M.length / B))))).2.flatten⟩ := by
  obtain ⟨h1, h2, h3⟩ := take_blocks_props B hB M
  conv_lhs =>
    rw [← List.take_append_drop (B * (M.length / B)) M, ← h2]
  exact procF_blocks f B 0 hB _ _ s h1 (Nat.zero_le _) (by omega)

/-- Feeding the CTR output blocks back through CTR from the same counter restores
the input blocks and reaches the same final counter. -/
theorem ctr_blocks_inv (sbox : Nat → Nat) (rks : List Nat) :
    ∀ (bs : List (List Nat)) (c : Nat), (∀ b ∈ bs, b.length = 16) →
      (∀ o ∈ (foldBlocks (ctrStep sbox rks) c bs).2, o.length = 16) ∧
      foldBlocks (ctrStep sbox rks) c (foldBlocks (ctrStep sbox rks) c bs).2 =
        ((foldBlocks (ctrStep sbox rks) c bs).1, bs) := by
  intro bs
  induction bs with
  | nil => intro c _; exact ⟨by simp [foldBlocks], rfl⟩
  | cons b bs ih =>
    intro c hbs
    have hb : b.length = 16 := hbs b (by simp)
    have hKlen : (sm4Apply sbox rks (natToBytes16 c)).length = 16 := sm4Apply_length _ _ _
    have hble : b.length ≤ (sm4Apply sbox rks (natToBytes16 c)).length := by omega
    have ho : (xorB (sm4Apply sbox rks (natToBytes16 c)) b).length = 16 := by
      rw [xorB_length, hKlen, hb]
      omega
    obtain ⟨ih1, ih2⟩ := ih ((c + 1) % 2 ^ 128) (fun x hx => hbs x (by simp [hx]))
    have hstep : ctrStep sbox rks c (xorB (sm4Apply sbox rks (natToBytes16 c)) b) =
        ((c + 1) % 2 ^ 128, b) := by
      unfold ctrStep
      rw [xorB_xorB _ _ hble]
    constructor
    · intro o hmem
      simp only [foldBlocks, ctrStep, List.mem_cons] at hmem
      rcases hmem with rfl | hmem
      · exact ho
      · exact ih1 o hmem
    · show foldBlocks (ctrStep sbox rks) c
        ((ctrStep sbox rks c b).2 :: (foldBlocks (ctrStep sbox rks) ((ctrStep sbox rks c b).1) bs).2) = _
      simp only [foldBlocks, ctrStep]
      rw [show (xorB (sm4Apply sbox rks (natToBytes16 c))
        (xorB (sm4Apply sbox rks (natToBytes16 c)) b)) = b from xorB_xorB _ _ hble]
      simp only [ctrStep] at ih2
      rw [ih2]

/-- CTR round trip at one-shot level, for every S-box, key and IV. -/
theorem sm4CtrMsg_roundtrip (sbox : Nat → Nat) (key iv M : List Nat)
    (hk : key.length = 16) (hiv : iv.length = 16) (C : List Nat)
    (hC : sm4CtrMsg sbox key iv M = .ok C) : sm4CtrMsg sbox key iv C = .ok M := by
  obtain ⟨hbs, hflat, htail⟩ := take_blocks_props 16 (by omega) M
  have hnew : sm4CtrNew sbox key iv =
      .ok ⟨sm4KeySched sbox key, ⟨bytesToNat iv, []⟩⟩ := by
    simp [sm4CtrNew, hk, hiv]
  obtain ⟨ilen, iinv⟩ := ctr_blocks_inv sbox (sm4KeySched sbox key)
    (chunksB 16 (M.take (16 * (M.length / 16)))) (bytesToNat iv) hbs
  have hupd : streamUpd (ctrStep sbox (sm4KeySched sbox key)) 16 0
      (⟨bytesToNat iv, []⟩ : StreamSt Nat) M =
      (⟨(foldBlocks (ctrStep sbox (sm4KeySched sbox key)) (bytesToNat iv)
          (chunksB 16 (M.take (16 * (M.length / 16))))).1,
        M.drop (16 * (M.length / 16))⟩,
       (foldBlocks (ctrStep sbox (sm4KeySched sbox key)) (bytesToNat iv)
          (chunksB 16 (M.take (16 * (M.length / 16))))).2.flatten) := by
    unfold streamUpd
    rw [show ([] : List Nat) ++ M = M from rfl, procF_message _ 16 (by omega)]
  have hCval : C =
      (foldBlocks (ctrStep sbox (sm4KeySched sbox key)) (bytesToNat iv)
        (chunksB 16 (M.take (16 * (M.length / 16))))).2.flatten ++
      xorB (sm4Apply sbox (sm4KeySched sbox key) (natToBytes16
        (foldBlocks (ctrStep sbox (sm4KeySched sbox key)) (bytesToNat iv)
          (chunksB 16 (M.take (16 * (M.length / 16))))).1))
        (M.drop (16 * (M.length / 16))) := by
    rw [sm4CtrMsg, hnew] at hC
    simp only [sm4CtrUpd, hupd, sm4CtrFin, Except.ok.injEq] at hC
    exact hC.symm
  -- the tail of C: the flushed keystream XOR, same length as the message tail
  have hfinlen : (xorB (sm4Apply sbox (sm4KeySched sbox key) (natToBytes16
      (foldBlocks (ctrStep sbox (sm4KeySched sbox key)) (bytesToNat iv)
        (chunksB 16 (M.take (16 * (M.length / 16))))).1))
      (M.drop (16 * (M.length / 16)))).length = (M.drop (16 * (M.length / 16))).length := by
    rw [xorB_length, sm4Apply_length]
    omega
  -- decryption run
  rw [sm4CtrMsg, hnew]
  have hupd2 : streamUpd (ctrStep sbox (sm4KeySched sbox key)) 16 0
      (⟨bytesToNat iv, []⟩ : StreamSt Nat) C =
      (⟨(foldBlocks (ctrStep sbox (sm4KeySched sbox key)) (bytesToNat iv)
          (chunksB 16 (M.take (16 * (M.length / 16))))).1,
        xorB (sm4Apply sbox (sm4KeySched sbox key) (natToBytes16
          (foldBlocks (ctrStep sbox (sm4KeySched sbox key)) (bytesToNat iv)
            (chunksB 16 (M.take (16 * (M.length / 16))))).1))
          (M.drop (16 * (M.length / 16)))⟩,
       M.take (16 * (M.length / 16))) := by
    unfold streamUpd
    rw [show ([] : List Nat) ++ C = C from rfl, hCval]
    rw [procF_blocks _ 16 0 (by omega) _ _ _ ilen (Nat.zero_le _) (by omega)]
    rw [iinv]
    rw [hflat]
  simp only [sm4CtrUpd, hupd2, sm4CtrFin, Except.ok.injEq]
  rw [xorB_xorB _ _ (by rw [sm4Apply_length]; omega)]
  exact List.take_append_drop _ M

theorem xorB_xorB_left (iv b : List Nat) (h : b.length ≤ iv.length) :
    xorB (xorB iv b) iv = b := by
  induction iv generalizing b with
  | nil =>
    simp only [List.length_nil, Nat.le_zero] at h
    rw [List.length_eq_zero.mp h]
    rfl
  | cons k ks ih =>
    cases b with
    | nil => rfl
    | cons d ds =>
      simp only [xorB, List.zipWith, List.cons.injEq]
      simp only [List.length_cons, Nat.succ_le_succ_iff] at h
      constructor
      · rw [Nat.xor_comm k d, Nat.xor_assoc, Nat.xor_self, Nat.xor_zero]
      · exact ih ds h

/-- ZUC: feeding the output words back from the same keystream position restores
the input words and reaches the same position. -/
theorem zuc_blocks_inv (ks : Nat → Nat) :
    ∀ (bs : List (List Nat)) (i : Nat), (∀ b ∈ bs, b.length = 4) →
      (∀ o ∈ (foldBlocks (zucStep ks) i bs).2, o.length = 4) ∧
      foldBlocks (zucStep ks) i (foldBlocks (zucStep ks) i bs).2 =
        ((foldBlocks (zucStep ks) i bs).1, bs) := by
  intro bs
  induction bs with
  | nil => intro i _; exact ⟨by simp [foldBlocks], rfl⟩
  | cons b bs ih =>
    intro i hbs
    have hb : b.length = 4 := hbs b (by simp)
    obtain ⟨ih1, ih2⟩ := ih (i + 4) (fun x hx => hbs x (by simp [hx]))
    constructor
    · intro o hmem
      simp only [foldBlocks, zucStep, List.mem_cons] at hmem
      rcases hmem with rfl | hmem
      · rw [xorKs_length]; exact hb
      · exact ih1 o hmem
    · show foldBlocks (zucStep ks) i
        ((zucStep ks i b).2 :: (foldBlocks (zucStep ks) ((zucStep ks i b).1) bs).2) = _
      simp only [foldBlocks, zucStep]
      rw [xorKs_xorKs]
      rw [ih2]

/-- ZUC round trip at one-shot level, for every keystream. -/
theorem zucMsg_roundtrip (ks : Nat → Nat) (key iv M : List Nat)
    (hk : key.length = 16) (hiv : iv.length = 16) (C : List Nat)
    (hC : zucMsg ks key iv M = .ok C) : zucMsg ks key iv C = .ok M := by
  obtain ⟨hbs, hflat, htail⟩ := take_blocks_props 4 (by omega) M
  have hnew : zucNew key iv = .ok ⟨0, []⟩ := by
    simp [zucNew, hk, hiv]
  obtain ⟨ilen, iinv⟩ := zuc_blocks_inv ks (chunksB 4 (M.take (4 * (M.length / 4)))) 0 hbs
  have hupd : streamUpd (zucStep ks) 4 0 (⟨0, []⟩ : StreamSt Nat) M =
      (⟨(foldBlocks (zucStep ks) 0 (chunksB 4 (M.take (4 * (M.length / 4))))).1,
        M.drop (4 * (M.length / 4))⟩,
       (foldBlocks (zucStep ks) 0 (chunksB 4 (M.take (4 * (M.length / 4))))).2.flatten) := by
    unfold streamUpd
    rw [show ([] : List Nat) ++ M = M from rfl, procF_message _ 4 (by omega)]
  have hCval : C =
      (foldBlocks (zucStep ks) 0 (chunksB 4 (M.take (4 * (M.length / 4))))).2.flatten ++
      xorKs ks (foldBlocks (zucStep ks) 0 (chunksB 4 (M.take (4 * (M.length / 4))))).1
        (M.drop (4 * (M.length / 4))) := by
    rw [zucMsg, hnew] at hC
    simp only [zucUpd, hupd, zucFin, Except.ok.injEq] at hC
    exact hC.symm
  have hfinlen : (xorKs ks (foldBlocks (zucStep ks) 0
      (chunksB 4 (M.take (4 * (M.length / 4))))).1
      (M.drop (4 * (M.length / 4)))).length = (M.drop (4 * (M.length / 4))).length :=
    xorKs_length _ _ _
  rw [zucMsg, hnew]
  have hupd2 : streamUpd (zucStep ks) 4 0 (⟨0, []⟩ : StreamSt Nat) C =
      (⟨(foldBlocks (zucStep ks) 0 (chunksB 4 (M.take (4 * (M.length / 4))))).1,
        xorKs ks (foldBlocks (zucStep ks) 0 (chunksB 4 (M.take (4 * (M.length / 4))))).1
          (M.drop (4 * (M.length / 4)))⟩,
       M.take (4 * (M.length / 4))) := by
    unfold streamUpd
    rw [show ([] : List Nat) ++ C = C from rfl, hCval]
    rw [procF_blocks _ 4 0 (by omega) _ _ _ ilen (Nat.zero_le _) (by omega)]
    rw [iinv]
    rw [hflat]
  simp only [zucUpd, hupd2, zucFin, Except.ok.injEq]
  rw [xorKs_xorKs]
  exact List.take_append_drop _ M

/-- CBC: decrypting the ciphertext blocks with the reversed schedule from the same
IV restores the plaintext blocks, with the same final chaining value. -/
theorem cbc_blocks_inv (sbox : Nat → Nat) (rks : List Nat) :
    ∀ (bs : List (List Nat)) (iv : List Nat),
      (∀ b ∈ bs, b.length = 16 ∧ allBytes b) → iv.length = 16 → allBytes iv →
      (∀ o ∈ (foldBlocks (cbcEncStep sbox rks) iv bs).2, o.length = 16 ∧ allBytes o) ∧
      (foldBlocks (cbcEncStep sbox rks) iv bs).1.length = 16 ∧
      allBytes (foldBlocks (cbcEncStep sbox rks) iv bs).1 ∧
      foldBlocks (cbcDecStep sbox rks.reverse) iv
          (foldBlocks (cbcEncStep sbox rks) iv bs).2 =
        ((foldBlocks (cbcEncStep sbox rks) iv bs).1, bs) := by
  intro bs
  induction bs with
  | nil =>
    intro iv _ hl hb
    exact ⟨by simp [foldBlocks], hl, hb, rfl⟩
  | cons b bs ih =>
    intro iv hbs hivl hivb
    obtain ⟨hbl, hbb⟩ := hbs b (by simp)
    have hxlen : (xorB iv b).length = 16 := by
      rw [xorB_length, hivl, hbl]; omega
    have hxb : allBytes (xorB iv b) := xorB_allBytes _ _ hivb hbb
    have hcl : (sm4Apply sbox rks (xorB iv b)).length = 16 := sm4Apply_length _ _ _
    have hcb : allBytes (sm4Apply sbox rks (xorB iv b)) := sm4Apply_allBytes _ _ _
    obtain ⟨ih1, ih2, ih3, ih4⟩ := ih (sm4Apply sbox rks (xorB iv b))
      (fun x hx => hbs x (by simp [hx])) hcl hcb
    have hdec : cbcDecStep sbox rks.reverse iv (sm4Apply sbox rks (xorB iv b)) =
        (sm4Apply sbox rks (xorB iv b), b) := by
      unfold cbcDecStep
      rw [sm4Apply_inv sbox rks _ hxlen hxb, xorB_xorB_left iv b (by omega)]
    refine ⟨?_, ?_, ?_, ?_⟩
    · intro o hmem
      simp only [foldBlocks, cbcEncStep, List.mem_cons] at hmem
      rcases hmem with rfl | hmem
      · exact ⟨hcl, hcb⟩
      · exact ih1 o hmem
    · simpa only [foldBlocks, cbcEncStep] using ih2
    · simpa only [foldBlocks, cbcEncStep] using ih3
    · show foldBlocks (cbcDecStep sbox rks.reverse) iv
        ((foldBlocks (cbcEncStep sbox rks) iv (b :: bs)).2) = _
      simp only [foldBlocks, cbcEncStep]
      show ((foldBlocks (cbcDecStep sbox rks.reverse)
          ((cbcDecStep sbox rks.reverse iv (sm4Apply sbox rks (xorB iv b))).1) _).1, _) = _
      rw [hdec]
      simp only []
      rw [ih4]

/-- CBC round trip at one-shot level, for every S-box, 16-byte key and IV,
and byte message of any length. -/
theorem sm4CbcMsg_roundtrip (sbox : Nat → Nat) (key iv M : List Nat)
    (hk : key.length = 16) (hiv : iv.length = 16) (hivb : allBytes iv)
    (hMb : allBytes M) (C : List Nat)
    (hC : sm4CbcEncryptMsg sbox key iv M = .ok C) :
    sm4CbcDecryptMsg sbox key iv C = .ok M := by
  obtain ⟨hbs0, hflat, htail⟩ := take_blocks_props 16 (by omega) M
  have hbs : ∀ b ∈ chunksB 16 (M.take (16 * (M.length / 16))), b.length = 16 ∧ allBytes b := by
    intro b hb
    refine ⟨hbs0 b hb, fun x hx => ?_⟩
    have hxf : x ∈ (chunksB 16 (M.take (16 * (M.length / 16)))).flatten :=
      List.mem_flatten.mpr ⟨b, hb, hx⟩
    rw [hflat] at hxf
    exact hMb x (List.take_subset _ _ hxf)
  have htb : allBytes (M.drop (16 * (M.length / 16))) :=
    fun x hx => hMb x (List.drop_subset _ _ hx)
  -- the padded final block
  set t := M.drop (16 * (M.length / 16)) with htdef
  set p := 16 - t.length with hpdef
  have hp1 : 1 ≤ p := by omega
  have hp16 : p ≤ 16 := by omega
  have hpblen : (t ++ List.replicate p p).length = 16 := by
    simp only [List.length_append, List.length_replicate]
    omega
  have hpbb : allBytes (t ++ List.replicate p p) := by
    intro x hx
    rcases List.mem_append.mp hx with hx | hx
    · exact htb x hx
    · rw [List.eq_of_mem_replicate hx]; omega
  -- encryption run
  have hnew : sm4CbcNew sbox key iv true =
      .ok ⟨sm4KeySched sbox key, true, ⟨iv, []⟩⟩ := by
    simp [sm4CbcNew, hk, hiv]
  obtain ⟨ilen, ifinl, ifinb, iinv⟩ := cbc_blocks_inv sbox (sm4KeySched sbox key)
    (chunksB 16 (M.take (16 * (M.length / 16)))) iv hbs hiv hivb
  have hupd : streamUpd (cbcEncStep sbox (sm4KeySched sbox key)) 16 0
      (⟨iv, []⟩ : StreamSt (List Nat)) M =
      (⟨(foldBlocks (cbcEncStep sbox (sm4KeySched sbox key)) iv
          (chunksB 16 (M.take (16 * (M.length / 16))))).1, t⟩,
       (foldBlocks (cbcEncStep sbox (sm4KeySched sbox key)) iv
          (chunksB 16 (M.take (16 * (M.length / 16))))).2.flatten) := by
    unfold streamUpd
    rw [show ([] : List Nat) ++ M = M from rfl, procF_message _ 16 (by omega)]
  set e1 := (foldBlocks (cbcEncStep sbox (sm4KeySched sbox key)) iv
    (chunksB 16 (M.take (16 * (M.length / 16))))).1 with he1
  set eouts := (foldBlocks (cbcEncStep sbox (sm4KeySched sbox key)) iv
    (chunksB 16 (M.take (16 * (M.length / 16))))).2 with heouts
  set cfin := (cbcEncStep sbox (sm4KeySched sbox key) e1 (t ++ List.replicate p p)).2
    with hcfin
  have hCval : C = eouts.flatten ++ cfin := by
    rw [sm4CbcEncryptMsg, hnew] at hC
    simp only [sm4CbcUpd, if_pos, hupd, sm4CbcFin, Except.ok.injEq] at hC
    rw [← hC]
  have hcfin2 : cfin = sm4Apply sbox (sm4KeySched sbox key) (xorB e1 (t ++ List.replicate p p)) :=
    rfl
  have hcfl : cfin.length = 16 := by rw [hcfin2]; exact sm4Apply_length _ _ _
  have hcfb : allBytes cfin := by rw [hcfin2]; exact sm4Apply_allBytes _ _ _
  -- decryption run
  have hnew2 : sm4CbcNew sbox key iv false =
      .ok ⟨(sm4KeySched sbox key).reverse, false, ⟨iv, []⟩⟩ := by
    simp [sm4CbcNew, hk, hiv]
  have hupd2 : streamUpd (cbcDecStep sbox (sm4KeySched sbox key).reverse) 16 1
      (⟨iv, []⟩ : StreamSt (List Nat)) C =
      (⟨e1, cfin⟩, M.take (16 * (M.length / 16))) := by
    unfold streamUpd
    rw [show ([] : List Nat) ++ C = C from rfl, hCval]
    rw [procF_blocks _ 16 1 (by omega) _ _ _ (fun o ho => (ilen o ho).1)
      (by omega) (by omega)]
    rw [iinv, hflat]
  rw [sm4CbcDecryptMsg, hnew2]
  simp only [sm4CbcUpd, Bool.false_eq_true, if_false, hupd2, sm4CbcFin]
  rw [if_neg (by rw [hcfl]; exact fun h => h rfl)]
  have hpt : xorB (sm4Apply sbox (sm4KeySched sbox key).reverse cfin) e1 =
      t ++ List.replicate p p := by
    rw [hcfin2, sm4Apply_inv sbox _ _ (by rw [xorB_length, ifinl, hpblen]; omega)
      (xorB_allBytes _ _ ifinb hpbb)]
    exact xorB_xorB_left e1 (t ++ List.replicate p p) (by rw [hpblen, ifinl])
  rw [hpt]
  have hget : (t ++ List.replicate p p).getD 15 0 = p := by
    rw [List.getD_append_right _ _ _ _ (by omega)]
    rw [List.getD_eq_getElem _ _ (by simp only [List.length_replicate]; omega)]
    simp
  rw [hget]
  have hdropt : (t ++ List.replicate p p).drop (16 - p) = List.replicate p p := by
    have h16p : 16 - p = t.length := by omega
    rw [h16p]
    exact List.drop_left _ _
  have htaket : (t ++ List.replicate p p).take (16 - p) = t := by
    have h16p : 16 - p = t.length := by omega
    rw [h16p]
    exact List.take_left _ _
  rw [if_pos ⟨hp1, hp16, hdropt⟩, htaket]
  rw [Except.ok.injEq]
  exact List.take_append_drop _ M

/-! ## Sm4Gcm (gmssl.py lines 279-328)

The wrapper validates key/IV/tag lengths and maps any engine failure — including a
tag mismatch at decrypt finish — to the single generic `InnerError`.  The engine is
modelled from the spec (§4.5): SM4-CTR keystream (the struct embeds the Sm4Ctr
context) combined with a GHASH GF(2^128) polynomial MAC over AAD and ciphertext;
the decrypt direction holds the trailing `taglen` bytes back and compares them with
the recomputed tag at finish. -/

/-- The GCM reduction constant of GF(2^128). -/
def gf128R : Nat := 0xe1 <<< 120

/-- Modelled from the spec: GF(2^128) multiplication by the standard shift-and-
reduce algorithm (MSB-first bits of `x`). -/
def gf128Mul (x y : Nat) : Nat :=
  ((List.range 128).foldl (fun zv i =>
    let z := if (x >>> (127 - i)) % 2 = 1 then zv.1 ^^^ zv.2 else zv.1
    let v := if zv.2 % 2 = 1 then (zv.2 >>> 1) ^^^ gf128R else zv.2 >>> 1
    (z, v)) ((0 : Nat), y % 2 ^ 128)).1

/-- Zero-pad to a whole number of 16-byte blocks. -/
def padTo16 (l : List Nat) : List Nat :=
  l ++ List.replicate ((16 - l.length % 16) % 16) 0

/-- The GHASH length block: 64-bit AAD bit length ‖ 64-bit ciphertext bit length. -/
def lenBlockNat (alen clen : Nat) : Nat :=
  ((8 * alen) % 2 ^ 64) * 2 ^ 64 + (8 * clen) % 2 ^ 64

/-- Modelled from the spec: GHASH — running polynomial evaluation
`X_i = (X_{i-1} ⊕ B_i) · H` over padded AAD, padded ciphertext, length block. -/
def gcmGhash (H : Nat) (aad c : List Nat) : Nat :=
  (((chunksB 16 (padTo16 aad)).map bytesToNat ++ (chunksB 16 (padTo16 c)).map bytesToNat)
    ++ [lenBlockNat aad.length c.length]).foldl (fun X b => gf128Mul (X ^^^ b) H) 0

/-- `H = SM4(key, 0^128)`. -/
def gcmH (sbox : Nat → Nat) (rks : List Nat) : Nat :=
  bytesToNat (sm4Apply sbox rks (List.replicate 16 0))

/-- Modelled from the spec: the initial counter block — `IV ‖ 0^31 ‖ 1` when the
IV is 12 bytes, else a GHASH-derived value. -/
def gcmJ0 (sbox : Nat → Nat) (rks : List Nat) (iv : List Nat) : Nat :=
  if iv.length = 12 then bytesToNat iv * 2 ^ 32 + 1
  else gcmGhash (gcmH sbox rks) [] iv

/-- Modelled from the spec: GCM data keystream byte `i` — the SM4-CTR keystream
of the counters following J0. -/
def gcmKs (sbox : Nat → Nat) (rks : List Nat) (j0 i : Nat) : Nat :=
  (sm4Apply sbox rks (natToBytes16 ((j0 + 1 + i / 16) % 2 ^ 128))).getD (i % 16) 0

/-- Modelled from the spec: the tag — GHASH XOR SM4(key, J0), truncated. -/
def gcmTag (sbox : Nat → Nat) (rks : List Nat) (j0 taglen : Nat) (aad c : List Nat) :
    List Nat :=
  (xorB (natToBytes16 (gcmGhash (gcmH sbox rks) aad c))
    (sm4Apply sbox rks (natToBytes16 j0))).take taglen

theorem gcmTag_length (sbox : Nat → Nat) (rks : List Nat) (j0 taglen : Nat)
    (aad c : List Nat) (h : taglen ≤ 16) :
    (gcmTag sbox rks j0 taglen aad c).length = taglen := by
  unfold gcmTag
  rw [List.length_take, xorB_length, natToBytes16_length, sm4Apply_length]
  omega

structure Sm4GcmSt where
  rks : List Nat
  j0 : Nat
  aad : List Nat
  taglen : Nat
  encdir : Bool
  acc : List Nat
  held : List Nat

/-- `Sm4Gcm.__init__` (gmssl.py lines 290-305): validate key, IV and tag lengths in
order, then initialize the engine. -/
def sm4GcmNew (sbox : Nat → Nat) (key iv aad : List Nat) (taglen : Nat)
    (encrypt : Bool) : Except GmErr Sm4GcmSt :=
  if key.length ≠ 16 then .error (.valueError "Invalid key length")
  else if iv.length < 1 ∨ 64 < iv.length then .error (.valueError "Invalid IV size")
  else if taglen < 1 ∨ 16 < taglen then .error (.valueError "Invalid Tag length")
  else .ok ⟨sm4KeySched sbox key, gcmJ0 sbox (sm4KeySched sbox key) iv, aad, taglen,
    encrypt, [], []⟩

/-- `Sm4Gcm.update`: encrypt emits keystream-XOR and authenticates its own output;
decrypt holds the trailing `taglen` bytes back (the tag-extraction bookkeeping) and
emits the keystream-XOR of the rest. -/
def sm4GcmUpd (sbox : Nat → Nat) (st : Sm4GcmSt) (data : List Nat) :
    Sm4GcmSt × List Nat :=
  if st.encdir then
    let out := xorKs (gcmKs sbox st.rks st.j0) st.acc.length data
    (⟨st.rks, st.j0, st.aad, st.taglen, st.encdir, st.acc ++ out, st.held⟩, out)
  else
    let s := st.held ++ data
    if s.length ≤ st.taglen then
      (⟨st.rks, st.j0, st.aad, st.taglen, st.encdir, st.acc, s⟩, [])
    else
      let body := s.take (s.length - st.taglen)
      let out := xorKs (gcmKs sbox st.rks st.j0) st.acc.length body
      (⟨st.rks, st.j0, st.aad, st.taglen, st.encdir, st.acc ++ body,
        s.drop (s.length - st.taglen)⟩, out)

/-- `Sm4Gcm.finish` (gmssl.py lines 319-328): encrypt appends the tag; decrypt
recomputes the tag and compares it with the held-back bytes — the engine reports
failure and the wrapper raises the generic `InnerError('libgmssl inner error')`
(there is no distinct authentication-error class in gmssl.py). -/
def sm4GcmFin (sbox : Nat → Nat) (st : Sm4GcmSt) : Except GmErr (List Nat) :=
  if st.encdir then
    .ok (gcmTag sbox st.rks st.j0 st.taglen st.aad st.acc)
  else
    if st.held.length = st.taglen ∧
        st.held = gcmTag sbox st.rks st.j0 st.taglen st.aad st.acc then
      .ok []
    else .error genericInnerError

/-- One-shot GCM encryption: ciphertext followed by the tag. -/
def sm4GcmEncryptMsg (sbox : Nat → Nat) (key iv aad : List Nat) (taglen : Nat)
    (M : List Nat) : Except GmErr (List Nat) :=
  match sm4GcmNew sbox key iv aad taglen true with
  | .error e => .error e
  | .ok st =>
    let r := sm4GcmUpd sbox st M
    match sm4GcmFin sbox r.1 with
    | .error e => .error e
    | .ok fin => .ok (r.2 ++ fin)

/-- One-shot GCM decryption of ciphertext-plus-tag. -/
def sm4GcmDecryptMsg (sbox : Nat → Nat) (key iv aad : List Nat) (taglen : Nat)
    (C : List Nat) : Except GmErr (List Nat) :=
  match sm4GcmNew sbox key iv aad taglen false with
  | .error e => .error e
  | .ok st =>
    let r := sm4GcmUpd sbox st C
    match sm4GcmFin sbox r.1 with
    | .error e => .error e
    | .ok fin => .ok (r.2 ++ fin)

/-- GCM round trip at one-shot level: same key, IV, AAD and tag length. -/
theorem sm4GcmMsg_roundtrip (sbox : Nat → Nat) (key iv aad M : List Nat)
    (taglen : Nat) (hk : key.length = 16) (hiv1 : 1 ≤ iv.length) (hiv2 : iv.length ≤ 64)
    (ht1 : 1 ≤ taglen) (ht2 : taglen ≤ 16) (C : List Nat)
    (hC : sm4GcmEncryptMsg sbox key iv aad taglen M = .ok C) :
    sm4GcmDecryptMsg sbox key iv aad taglen C = .ok M := by
  have hnew : ∀ e : Bool, sm4GcmNew sbox key iv aad taglen e =
      .ok ⟨sm4KeySched sbox key, gcmJ0 sbox (sm4KeySched sbox key) iv, aad, taglen,
        e, [], []⟩ := by
    intro e
    simp only [sm4GcmNew, hk]
    rw [if_neg (by omega), if_neg (by omega), if_neg (by omega)]
  set rks := sm4KeySched sbox key with hrks
  set j0 := gcmJ0 sbox rks iv with hj0
  set out := xorKs (gcmKs sbox rks j0) 0 M with hout
  have houtlen : out.length = M.length := xorKs_length _ _ _
  set T := gcmTag sbox rks j0 taglen aad out with hT
  have hTlen : T.length = taglen := gcmTag_length _ _ _ _ _ _ ht2
  have hCval : C = out ++ T := by
    rw [sm4GcmEncryptMsg, hnew] at hC
    simp only [sm4GcmUpd, if_pos, sm4GcmFin, Except.ok.injEq] at hC
    rw [← hC]
    rfl
  rw [sm4GcmDecryptMsg, hnew, hCval]
  by_cases hM : M.length = 0
  · have hMnil : M = [] := List.length_eq_zero.mp hM
    subst hMnil
    have houtnil : out = [] := by
      rw [hout]; rfl
    simp only [sm4GcmUpd, houtnil, List.nil_append]
    rw [if_neg (by simp), if_pos (by omega)]
    simp only [sm4GcmFin]
    rw [if_neg (by simp)]
    rw [if_pos ⟨hTlen, by rw [hT, houtnil]⟩]
    rfl
  · simp only [sm4GcmUpd]
    rw [if_neg (by simp)]
    have hslen : (([] : List Nat) ++ (out ++ T)).length = M.length + taglen := by
      simp only [List.nil_append, List.length_append, houtlen, hTlen]
    rw [if_neg (by rw [hslen]; omega)]
    have hk1 : (([] : List Nat) ++ (out ++ T)).length - taglen = M.length := by
      rw [hslen]; omega
    have htake : (([] : List Nat) ++ (out ++ T)).take
        ((([] : List Nat) ++ (out ++ T)).length - taglen) = out := by
      rw [hk1, List.nil_append, ← houtlen]
      exact List.take_left _ _
    have hdrop : (([] : List Nat) ++ (out ++ T)).drop
        ((([] : List Nat) ++ (out ++ T)).length - taglen) = T := by
      rw [hk1, List.nil_append, ← houtlen]
      exact List.drop_left _ _
    rw [htake, hdrop]
    simp only [List.length_nil, List.nil_append]
    rw [show xorKs (gcmKs sbox rks j0) 0 out = M from by rw [hout, xorKs_xorKs]]
    simp only [sm4GcmFin]
    rw [if_neg (by simp)]
    rw [if_pos (⟨hTlen, trivial⟩ : T.length = taglen ∧ True)]
    simp

theorem runChunks_fst {τ : Type} (upd : τ → List Nat → τ × List Nat) :
    ∀ (cs : List (List Nat)) (st : τ),
      (runChunks upd st cs).1 = cs.foldl (fun s c => (upd s c).1) st := by
  intro cs
  induction cs with
  | nil => intro st; rfl
  | cons c cs ih => intro st; exact ih (upd st c).1

theorem foldBlocks_sm3 :
    ∀ (bs : List (List Nat)) (v : Sm3V) (n : Nat),
      (foldBlocks sm3StepF (v, n) bs).1 = (bs.foldl sm3CF v, n + bs.length) := by
  intro bs
  induction bs with
  | nil => intro v n; simp [foldBlocks]
  | cons b bs ih =>
    intro v n
    show (foldBlocks sm3StepF (sm3CF v b, n + 1) bs).1 = _
    rw [ih]
    simp only [List.foldl_cons, List.length_cons]
    rw [Nat.add_comm bs.length 1, ← Nat.add_assoc]

/-- Streaming SM3 over any chunking equals the one-shot hash of the concatenation:
the digest is byte-identical across repeated invocations however the message is fed. -/
theorem sm3_stream_digest (cs : List (List Nat)) :
    sm3Digest (cs.foldl sm3Update sm3New) = sm3Hash cs.flatten := by
  have h1 : cs.foldl sm3Update sm3New =
      (runChunks (streamUpd sm3StepF 64 0) sm3New cs).1 := by
    rw [runChunks_fst]
    rfl
  rw [h1, runChunks_join sm3StepF 64 0 (by omega) cs sm3New (by simp [sm3New])]
  set M := cs.flatten with hM
  obtain ⟨hbs, hflat, htail⟩ := take_blocks_props 64 (by omega) M
  have hupd : streamUpd sm3StepF 64 0 sm3New M =
      (⟨(foldBlocks sm3StepF (sm3IVv, 0) (chunksB 64 (M.take (64 * (M.length / 64))))).1,
        M.drop (64 * (M.length / 64))⟩,
       (foldBlocks sm3StepF (sm3IVv, 0)
          (chunksB 64 (M.take (64 * (M.length / 64))))).2.flatten) := by
    unfold streamUpd sm3New
    rw [show ([] : List Nat) ++ M = M from rfl, procF_message _ 64 (by omega)]
  rw [hupd]
  set bs := chunksB 64 (M.take (64 * (M.length / 64))) with hbsdef
  have hbn : 64 * bs.length = 64 * (M.length / 64) := by
    rw [← flatten_length_of_blocks 64 bs hbs, hflat, List.length_take]
    have : 64 * (M.length / 64) ≤ M.length := by omega
    omega
  have hcount : (foldBlocks sm3StepF (sm3IVv, 0) bs).1 = (bs.foldl sm3CF sm3IVv, bs.length) := by
    rw [foldBlocks_sm3]
    simp
  unfold sm3Digest
  rw [hcount]
  simp only []
  have htotal : bs.length * 64 + (M.drop (64 * (M.length / 64))).length = M.length := by
    rw [List.length_drop]
    omega
  rw [htotal]
  rw [← List.foldl_append sm3CF _ bs _]
  rw [← chunksB_flatten_append 64 (by omega) bs _ hbs]
  rw [hflat]
  rw [← List.append_assoc, List.take_append_drop]
  rfl

/-! ## Sm3Hmac and Sm4 constructors (gmssl.py lines 79-129) -/

structure Sm3HmacSt where
  key : List Nat

/-- `Sm3Hmac.__init__` (gmssl.py lines 86-89): the key length is validated
(16 ≤ len ≤ 64) before the engine init, which is not error-checked. -/
def sm3HmacNew (key : List Nat) : Except GmErr Sm3HmacSt :=
  if key.length < 16 ∨ 64 < key.length then
    .error (.valueError "Invalid SM3 HMAC key length")
  else .ok ⟨key⟩

/-- `Sm4.__init__` (gmssl.py lines 116-122): exact 16-byte key required; the stored
schedule is direction-specific. -/
def sm4New (sbox : Nat → Nat) (key : List Nat) (encrypt : Bool) :
    Except GmErr (List Nat) :=
  if key.length ≠ 16 then .error (.valueError "Invalid key length")
  else .ok (if encrypt then sm4KeySched sbox key else (sm4KeySched sbox key).reverse)

/-! ## SM2 (gmssl.py lines 331-469)

The elliptic-curve engine is not in the Python sources.  It is modelled from the
spec (§4.7) over the cyclic subgroup generated by the base point G: the subgroup is
identified with `ZMod n` (n the curve order, a prime), a group element is its
discrete logarithm, and the x-coordinate map is an arbitrary function
`X : ZMod n → ZMod n`; the key pair satisfies `public = scalar · G`, so the public
key is the private scalar under this identification.  The wrapper logic
(validation, return-code mapping) is translated directly from gmssl.py. -/

/-- Modelled from the spec: modular inversion as a Fermat power — for the prime
group order n this is the field inverse, and unlike `Inv.inv` on `ZMod` it
evaluates by kernel reduction. -/
def zmodFermatInv (n : Nat) (a : ZMod n) : ZMod n := a ^ (n - 2)

theorem zmodFermatInv_eq_inv (n : Nat) [hp : Fact (Nat.Prime n)] (a : ZMod n)
    (ha : a ≠ 0) : zmodFermatInv n a = a⁻¹ := by
  haveI : NeZero n := ⟨hp.out.ne_zero⟩
  have h2 : 2 ≤ n := hp.out.two_le
  have h1 : a ^ (Fintype.card (ZMod n) - 1) = 1 := FiniteField.pow_card_sub_one_eq_one a ha
  rw [ZMod.card n] at h1
  have hmul : a * a ^ (n - 2) = 1 := by
    have hstep : a * a ^ (n - 2) = a ^ (n - 1) := by
      rw [← pow_succ']
      congr 1
      omega
    rw [hstep, h1]
  exact eq_inv_of_mul_eq_one_right hmul

/-- Modelled from the spec: the standard SM2 signature equations with nonce `k` —
`r = e + x₁ mod n`, `s = (1+d)⁻¹ (k − r·d) mod n`, with the degenerate draws
(`r = 0`, `r + k = n`, `s = 0`) rejected (the engine retries them). -/
def sm2SignEq (n : Nat) (X : ZMod n → ZMod n) (d k e : ZMod n) :
    Option (ZMod n × ZMod n) :=
  let r := e + X k
  let s := zmodFermatInv n (1 + d) * (k - r * d)
  if r = 0 ∨ r + k = 0 ∨ s = 0 then none else some (r, s)

/-- Modelled from the spec: the SM2 verification equation —
`t = r + s`, accept iff `e + x(s·G + t·P) = r`, rejecting out-of-range values. -/
def sm2VerifyCore (n : Nat) (X : ZMod n → ZMod n) (p e r s : ZMod n) : Bool :=
  if r = 0 ∨ s = 0 then false
  else if r + s = 0 then false
  else decide (e + X (s + (r + s) * p) = r)

/-- A signature byte string as seen by the engine: DER-decodable to `(r, s)`,
or malformed. -/
inductive Sm2SigEnc where
  | der (r s : Nat) : Sm2SigEnc
  | malformed : Sm2SigEnc
  deriving DecidableEq, Repr

/-- Modelled from the spec: the `sm2_verify` engine convention — a malformed
encoding or out-of-range `r`/`s` yields 0 (rejected, boolean false at the
wrapper); only an engine fault yields a negative value. -/
def sm2VerifyEngine (n : Nat) (X : ZMod n → ZMod n) (p e : ZMod n)
    (sig : Sm2SigEnc) : Int :=
  match sig with
  | .malformed => 0
  | .der r s =>
    if r = 0 ∨ n ≤ r ∨ s = 0 ∨ n ≤ s then 0
    else if sm2VerifyCore n X p e (r : ZMod n) (s : ZMod n) then 1 else 0

/-- The return-code mapping of `Sm2Key.verify` (gmssl.py lines 408-413):
negative → raise the generic InnerError; zero → False; positive → True. -/
def sm2VerifyRetMap (ret : Int) : Except GmErr Bool :=
  if ret < 0 then .error genericInnerError
  else if ret = 0 then .ok false
  else .ok true

/-- The identical return-code mapping of the streaming `Sm2Signature.verify`
(gmssl.py lines 464-469). -/
def sm2SigVerifyRetMap (ret : Int) : Except GmErr Bool :=
  if ret < 0 then .error genericInnerError
  else if ret = 0 then .ok false
  else .ok true

/-- An SM2 key pair in the discrete-log model: `pub = priv` (both name the same
scalar, as `public = scalar · G`). -/
structure Sm2KeyM (n : Nat) where
  pub : ZMod n
  priv : ZMod n

/-- The observable outcome of one `Sm2Key.verify` call. -/
structure Sm2VerifyOut (n : Nat) where
  result : Except GmErr Bool
  engineCalled : Bool
  keyAfter : Sm2KeyM n

/-- The digest as an integer mod n. -/
def digestToE (n : Nat) (d : List Nat) : ZMod n := (bytesToNat d : ZMod n)

/-- `Sm2Key.verify` (gmssl.py lines 405-413): the digest length is validated
before any engine call; a wrong-length digest raises
`ValueError('Invalid SM3 digest size')` without touching the engine or the key. -/
def sm2KeyVerify (n : Nat) (X : ZMod n → ZMod n) (key : Sm2KeyM n)
    (dgst : List Nat) (sig : Sm2SigEnc) : Sm2VerifyOut n :=
  if dgst.length ≠ 32 then ⟨.error (.valueError "Invalid SM3 digest size"), false, key⟩
  else ⟨sm2VerifyRetMap (sm2VerifyEngine n X key.pub (digestToE n dgst) sig), true, key⟩

/-- `Sm2Key.sign` (gmssl.py lines 396-403) with the per-signature nonce `k` made
explicit; a degenerate nonce is reported as an engine failure (the engine's
internal retry loop draws a fresh nonce). -/
def sm2KeySign (n : Nat) (X : ZMod n → ZMod n) (key : Sm2KeyM n) (k : ZMod n)
    (dgst : List Nat) : Except GmErr Sm2SigEnc :=
  if dgst.length ≠ 32 then .error (.valueError "Invalid SM3 digest size")
  else
    match sm2SignEq n X key.priv k (digestToE n dgst) with
    | none => .error genericInnerError
    | some rs => .ok (.der rs.1.val rs.2.val)

/-! ### SM2 signature correctness (over the group model) -/

theorem sm2SignEq_some (n : Nat) (X : ZMod n → ZMod n) (d k e r s : ZMod n)
    (hsig : sm2SignEq n X d k e = some (r, s)) :
    r = e + X k ∧ s = zmodFermatInv n (1 + d) * (k - r * d) ∧
      r ≠ 0 ∧ s ≠ 0 ∧ r + k ≠ 0 := by
  unfold sm2SignEq at hsig
  by_cases hc : e + X k = 0 ∨ e + X k + k = 0 ∨
    zmodFermatInv n (1 + d) * (k - (e + X k) * d) = 0
  · rw [if_pos hc] at hsig
    exact absurd hsig (by simp)
  · rw [if_neg hc] at hsig
    push_neg at hc
    obtain ⟨hc1, hc2, hc3⟩ := hc
    have h := Option.some.inj hsig
    have hr : e + X k = r := congrArg Prod.fst h
    have hs : zmodFermatInv n (1 + d) * (k - (e + X k) * d) = s := congrArg Prod.snd h
    refine ⟨hr.symm, ?_, ?_, ?_, ?_⟩
    · rw [← hs, hr]
    · rw [← hr]; exact hc1
    · rw [← hs]; exact hc3
    · rw [← hr]; exact hc2

/-- The signing equation recovers the nonce point:
`s·G + (r+s)·P = k·G` in the discrete-log model. -/
theorem sm2_sign_nonce (n : Nat) [hp : Fact (Nat.Prime n)]
    (d k r s : ZMod n) (h1d : 1 + d ≠ 0)
    (hs : s = zmodFermatInv n (1 + d) * (k - r * d)) :
    s + (r + s) * d = k := by
  rw [zmodFermatInv_eq_inv n (1 + d) h1d] at hs
  subst hs
  field_simp
  ring

/-- Behaviour of the verification equation on honest, wrong-digest, and
s-tampered inputs, in the group model. -/
theorem sm2_verify_results (n : Nat) [hp : Fact (Nat.Prime n)] (X : ZMod n → ZMod n)
    (d k e r s : ZMod n) (h1d : 1 + d ≠ 0)
    (hsig : sm2SignEq n X d k e = some (r, s)) (hts : r + s ≠ 0) :
    sm2VerifyCore n X d e r s = true ∧
    (∀ e' : ZMod n, e' ≠ e → sm2VerifyCore n X d e' r s = false) ∧
    (∀ s' : ZMod n, Function.Injective X → s' ≠ s → s' ≠ 0 → r + s' ≠ 0 →
      sm2VerifyCore n X d e r s' = false) := by
  obtain ⟨hr, hs, hr0, hs0, hrk⟩ := sm2SignEq_some n X d k e r s hsig
  have hK : s + (r + s) * d = k := sm2_sign_nonce n d k r s h1d hs
  refine ⟨?_, ?_, ?_⟩
  · unfold sm2VerifyCore
    rw [if_neg (not_or.mpr ⟨hr0, hs0⟩), if_neg hts, hK, hr]
    simp
  · intro e' hne
    unfold sm2VerifyCore
    rw [if_neg (not_or.mpr ⟨hr0, hs0⟩), if_neg hts, hK]
    simp only [decide_eq_false_iff_not]
    intro heq
    exact hne (add_right_cancel (heq.trans hr))
  · intro s' hinj hnes hs'0 hts'
    unfold sm2VerifyCore
    rw [if_neg (not_or.mpr ⟨hr0, hs'0⟩), if_neg hts']
    simp only [decide_eq_false_iff_not]
    intro heq
    have h3 : s' + (r + s') * d = k := hinj (add_left_cancel (heq.trans hr))
    have hdiff : s' + (r + s') * d = s + (r + s) * d := h3.trans hK.symm
    have h4 : (s' - s) * (1 + d) = 0 := by linear_combination hdiff
    rcases mul_eq_zero.mp h4 with h | h
    · exact hnes (sub_eq_zero.mp h)
    · exact h1d h

/-! ## Sm2Key.encrypt (gmssl.py lines 415-420)

The wrapper performs NO plaintext-length validation: it passes the data straight to
`sm2_encrypt` and raises the generic InnerError when the engine reports failure. -/

/-- DER TLV length of an INTEGER whose content needs `blen` bytes (short form,
`blen ≤ 33`). -/
def derIntLen (blen : Nat) : Nat := 2 + blen

/-- DER TLV length of an OCTET STRING of `l` content bytes. -/
def derOctLen (l : Nat) : Nat :=
  if l < 128 then 2 + l else if l < 256 then 3 + l else 4 + l

/-- Modelled from the spec: the DER-encoded SM2Ciphertext
`SEQUENCE { INTEGER x, INTEGER y, OCTET(32) hash, OCTET cipher }` byte length,
for coordinate encodings of `xl`/`yl` bytes and an `ml`-byte plaintext. -/
def sm2CiphertextLen (xl yl ml : Nat) : Nat :=
  let inner := derIntLen xl + derIntLen yl + (2 + 32) + derOctLen ml
  if inner < 128 then 2 + inner else if inner < 256 then 3 + inner else 4 + inner

/-- Modelled from the spec: `sm2_encrypt` — rejects plaintext lengths outside
[1,255] (SM2_MIN/MAX_PLAINTEXT_SIZE); otherwise produces a DER SM2Ciphertext.
The byte content is abstracted (the spec does not determine it); only the
DER-determined length is modelled, with `xl`,`yl` the encoded coordinate
lengths (1–33 bytes). -/
def sm2EncryptEngine (xl yl : Nat) (data : List Nat) : Option (List Nat) :=
  if data.length < 1 ∨ 255 < data.length then none
  else some (List.replicate (sm2CiphertextLen xl yl data.length) 0)

/-- `Sm2Key.encrypt` (gmssl.py lines 415-420): no wrapper-side validation; an
engine rejection surfaces as the generic `InnerError`, not a `ValueError`. -/
def sm2KeyEncrypt (xl yl : Nat) (data : List Nat) : Except GmErr (List Nat) :=
  match sm2EncryptEngine xl yl data with
  | none => .error genericInnerError
  | some c => .ok c

theorem sm2CiphertextLen_bounds (xl yl ml : Nat)
    (hx1 : 1 ≤ xl) (hx2 : xl ≤ 33) (hy1 : 1 ≤ yl) (hy2 : yl ≤ 33)
    (hm1 : 1 ≤ ml) (hm2 : ml ≤ 255) :
    45 ≤ sm2CiphertextLen xl yl ml ∧ sm2CiphertextLen xl yl ml ≤ 366 := by
  unfold sm2CiphertextLen derIntLen derOctLen
  dsimp only
  constructor <;> (repeat' split) <;> omega

/-! ## PEM key I/O (gmssl.py lines 363-394)

All four PEM methods have the same shape, translated here event by event:
`fp = libc.fopen(...)`; call the engine; `if ret != 1: raise InnerError(...)` —
note this raise happens BEFORE `libc.fclose(fp)` — otherwise `libc.fclose(fp)`
and `return True`. -/

inductive PemEv where
  | fileOpen : PemEv
  | engineCall : PemEv
  | fileClose : PemEv
  deriving DecidableEq, Repr

structure PemRun where
  events : List PemEv
  result : Except GmErr Bool

/-- `Sm2Key.export_encrypted_private_key_info_pem` /
`import_encrypted_private_key_info_pem` / `export_public_key_info_pem` /
`import_public_key_info_pem` (gmssl.py lines 363-394), as an event trace;
`engineOk` abstracts the engine's return code. -/
def pemKeyOp (engineOk : Bool) : PemRun :=
  if engineOk then ⟨[.fileOpen, .engineCall, .fileClose], .ok true⟩
  else ⟨[.fileOpen, .engineCall], .error genericInnerError⟩

/-- A GCM decrypt-direction finish with a tag mismatch (or missing tag bytes)
fails with the single generic InnerError — gmssl.py has no other error class for
this path. -/
theorem sm4GcmFin_mismatch (sbox : Nat → Nat) (st : Sm4GcmSt)
    (hdir : st.encdir = false)
    (hmm : ¬(st.held.length = st.taglen ∧
      st.held = gcmTag sbox st.rks st.j0 st.taglen st.aad st.acc)) :
    sm4GcmFin sbox st = .error genericInnerError := by
  unfold sm4GcmFin
  rw [hdir]
  simp only [Bool.false_eq_true, if_false]
  exact if_neg hmm

/-! ## Concrete demonstration inputs -/

/-- A concrete S-box instantiation (the theorems hold for every 8-bit table). -/
def sboxId : Nat → Nat := fun b => b

def key16z : List Nat := List.replicate 16 0

def iv12z : List Nat := List.replicate 12 0

/-- The honest GCM tag of the empty message under `sboxId`, with its first bit
flipped. -/
def gcmDemoTagFlip : List Nat :=
  match gcmTag sboxId (sm4KeySched sboxId key16z)
      (gcmJ0 sboxId (sm4KeySched sboxId key16z) iv12z) 16 [] [] with
  | [] => []
  | b :: t => (b ^^^ 1) :: t

/-- The decrypt-direction GCM state after feeding the bit-flipped tag. -/
def gcmDemoDecSt : Sm4GcmSt :=
  (sm4GcmUpd sboxId ⟨sm4KeySched sboxId key16z,
    gcmJ0 sboxId (sm4KeySched sboxId key16z) iv12z, [], 16, false, [], []⟩
    gcmDemoTagFlip).1

/-! ## Claims -/

/-- C1 counterexample: decrypting under a single-bit-flipped tag makes `finish()`
fail with the SAME generic `InnerError('libgmssl inner error')` that every other
engine failure raises — not with a distinct authentication error, contrary to the
claim.  (gmssl.py's only two error classes are ValueError and InnerError, and the
GCM decrypt-finish path raises the generic InnerError.) -/
theorem claim_C1_counterexample :
    sm4GcmDecryptMsg sboxId key16z iv12z [] 16 gcmDemoTagFlip =
      .error genericInnerError := by
  rfl

/-- C1 (amended): for every Sm4Gcm state in decrypt direction whose supplied
trailing tag bytes do not match the recomputed tag, `finish()` fails — it never
silently returns wrong plaintext — but the error raised is the single generic
`InnerError('libgmssl inner error')`, the same error used for every other engine
failure; gmssl.py has no distinct authentication-error class. -/
theorem claim_C1 (sbox : Nat → Nat) (st : Sm4GcmSt) (hdir : st.encdir = false)
    (hmm : ¬(st.held.length = st.taglen ∧
      st.held = gcmTag sbox st.rks st.j0 st.taglen st.aad st.acc)) :
    sm4GcmFin sbox st = .error genericInnerError :=
  sm4GcmFin_mismatch sbox st hdir hmm

/-- C1 witness: the concrete bit-flipped-tag decrypt state satisfies the
hypotheses, and its finish raises the generic InnerError. -/
theorem claim_C1_witness :
    gcmDemoDecSt.encdir = false ∧
    ¬(gcmDemoDecSt.held.length = gcmDemoDecSt.taglen ∧
      gcmDemoDecSt.held = gcmTag sboxId gcmDemoDecSt.rks gcmDemoDecSt.j0
        gcmDemoDecSt.taglen gcmDemoDecSt.aad gcmDemoDecSt.acc) ∧
    sm4GcmFin sboxId gcmDemoDecSt = .error genericInnerError :=
  ⟨rfl, by decide, claim_C1 sboxId gcmDemoDecSt rfl (by decide)⟩

/-- C4 counterexample: the SM3 digest of "abc" does NOT begin with the bytes
`66c7f0f462eeedd9d1f2d46bbc2098c8` quoted by the spec — the published vector
diverges from the quoted one at byte 12 (`dc10e4e2`, not `bc2098c8`). -/
theorem claim_C4_counterexample :
    (sm3Hash [0x61, 0x62, 0x63]).take 16 ≠
      [0x66, 0xc7, 0xf0, 0xf4, 0x62, 0xee, 0xed, 0xd9,
       0xd1, 0xf2, 0xd4, 0x6b, 0xbc, 0x20, 0x98, 0xc8] := by
  decide

/-- C4 (amended): the SM3 digest of every message is a fixed 32-byte value,
byte-identical across invocations however the message is chunked, and the digest
of "abc" equals the published SM3 test vector
`66c7f0f462eeedd9d1f2d46bdc10e4e24167c4875cf2f7a2297da02b8f4ba8e0`. -/
theorem claim_C4 :
    (∀ M : List Nat, (sm3Hash M).length = 32) ∧
    (∀ cs : List (List Nat),
      sm3Digest (cs.foldl sm3Update sm3New) = sm3Hash cs.flatten) ∧
    sm3Hash [0x61, 0x62, 0x63] =
      [0x66, 0xc7, 0xf0, 0xf4, 0x62, 0xee, 0xed, 0xd9,
       0xd1, 0xf2, 0xd4, 0x6b, 0xdc, 0x10, 0xe4, 0xe2,
       0x41, 0x67, 0xc4, 0x87, 0x5c, 0xf2, 0xf7, 0xa2,
       0x29, 0x7d, 0xa0, 0x2b, 0x8f, 0x4b, 0xa8, 0xe0] :=
  ⟨sm3Hash_length, sm3_stream_digest, by decide⟩

/-- C6 counterexample: encrypting the empty plaintext fails with the generic
`InnerError('libgmssl inner error')` — the engine's rejection passed through —
not with an input-validation `ValueError` as the claim states (gmssl.py's
`Sm2Key.encrypt` performs no length validation of its own). -/
theorem claim_C6_counterexample :
    sm2KeyEncrypt 1 1 [] = .error genericInnerError ∧
    sm2KeyEncrypt 1 1 (List.replicate 256 0) = .error genericInnerError := by
  exact ⟨rfl, rfl⟩

/-- C6 (amended): `Sm2Key.encrypt` performs no length validation itself; a
plaintext of length 0 or 256 is rejected by the engine and surfaces as the
generic inner-engine error (not an input-validation error), and for every
plaintext of length in [1,255] the returned ciphertext length is in [45,366]. -/
theorem claim_C6 :
    (∀ (xl yl : Nat) (data : List Nat), data.length = 0 →
      sm2KeyEncrypt xl yl data = .error genericInnerError) ∧
    (∀ (xl yl : Nat) (data : List Nat), data.length = 256 →
      sm2KeyEncrypt xl yl data = .error genericInnerError) ∧
    (∀ (xl yl : Nat) (data C : List Nat), 1 ≤ xl → xl ≤ 33 → 1 ≤ yl → yl ≤ 33 →
      1 ≤ data.length → data.length ≤ 255 →
      sm2KeyEncrypt xl yl data = .ok C → 45 ≤ C.length ∧ C.length ≤ 366) := by
  refine ⟨?_, ?_, ?_⟩
  · intro xl yl data h
    unfold sm2KeyEncrypt sm2EncryptEngine
    rw [if_pos (by omega)]
  · intro xl yl data h
    unfold sm2KeyEncrypt sm2EncryptEngine
    rw [if_pos (by omega)]
  · intro xl yl data C hx1 hx2 hy1 hy2 hm1 hm2 hC
    unfold sm2KeyEncrypt sm2EncryptEngine at hC
    rw [if_neg (by omega)] at hC
    have hCv : C = List.replicate (sm2CiphertextLen xl yl data.length) 0 :=
      (Except.ok.inj hC).symm
    rw [hCv, List.length_replicate]
    exact sm2CiphertextLen_bounds xl yl data.length hx1 hx2 hy1 hy2 hm1 hm2

/-- C6 witness: the amended claim at concrete inputs — empty plaintext gives the
generic inner error, and a 1-byte plaintext with minimal coordinates gives a
45-byte ciphertext within the bounds. -/
theorem claim_C6_witness :
    sm2KeyEncrypt 1 1 [] = .error genericInnerError ∧
    (45 ≤ (List.replicate 45 0 : List Nat).length ∧
      (List.replicate 45 0 : List Nat).length ≤ 366) :=
  ⟨claim_C6.1 1 1 [] (by decide),
   claim_C6.2.2 1 1 [0] (List.replicate 45 0) (by decide) (by decide) (by decide)
     (by decide) (by decide) (by decide) (by rfl)⟩

/-- C7: construction-time parameter bounds are enforced with input-validation
`ValueError`s before any engine call: Sm3Hmac construction fails for key lengths
15 and 65 and succeeds for 16 and 64; Sm4 construction fails for key length 15
or 17; Sm4Gcm construction fails for tag length 0 or 17. -/
theorem claim_C7 :
    sm3HmacNew (List.replicate 15 0) =
      .error (.valueError "Invalid SM3 HMAC key length") ∧
    sm3HmacNew (List.replicate 65 0) =
      .error (.valueError "Invalid SM3 HMAC key length") ∧
    exceptOk (sm3HmacNew (List.replicate 16 0)) = true ∧
    exceptOk (sm3HmacNew (List.replicate 64 0)) = true ∧
    (∀ (sbox : Nat → Nat) (encrypt : Bool),
      sm4New sbox (List.replicate 15 0) encrypt =
        .error (.valueError "Invalid key length") ∧
      sm4New sbox (List.replicate 17 0) encrypt =
        .error (.valueError "Invalid key length")) ∧
    (∀ (sbox : Nat → Nat) (encrypt : Bool),
      sm4GcmNew sbox (List.replicate 16 0) (List.replicate 12 0) [] 0 encrypt =
        .error (.valueError "Invalid Tag length") ∧
      sm4GcmNew sbox (List.replicate 16 0) (List.replicate 12 0) [] 17 encrypt =
        .error (.valueError "Invalid Tag length")) :=
  ⟨rfl, rfl, rfl, rfl, fun _ _ => ⟨rfl, rfl⟩, fun _ _ => ⟨rfl, rfl⟩⟩

/-- C8: the two failure classes of SM2 verification are kept disjoint — a
malformed signature encoding or out-of-range `r`/`s` yields the boolean `False`
and never raises, while a negative engine code (engine fault) maps to the raised
generic InnerError and never to a boolean; the same return-code convention
governs both `Sm2Key.verify` and the streaming `Sm2Signature.verify`. -/
theorem claim_C8 :
    (∀ (n : Nat) (X : ZMod n → ZMod n) (key : Sm2KeyM n) (dgst : List Nat),
      dgst.length = 32 →
      (sm2KeyVerify n X key dgst .malformed).result = .ok false) ∧
    (∀ (n : Nat) (X : ZMod n → ZMod n) (key : Sm2KeyM n) (dgst : List Nat)
      (r s : Nat), dgst.length = 32 → (r = 0 ∨ n ≤ r ∨ s = 0 ∨ n ≤ s) →
      (sm2KeyVerify n X key dgst (.der r s)).result = .ok false) ∧
    (∀ ret : Int, ret < 0 → sm2VerifyRetMap ret = .error genericInnerError) ∧
    (∀ ret : Int, 0 ≤ ret → ∃ b : Bool, sm2VerifyRetMap ret = .ok b) ∧
    (∀ ret : Int, ret < 0 → sm2SigVerifyRetMap ret = .error genericInnerError) ∧
    (∀ ret : Int, 0 ≤ ret → ∃ b : Bool, sm2SigVerifyRetMap ret = .ok b) := by
  refine ⟨?_, ?_, ?_, ?_, ?_, ?_⟩
  · intro n X key dgst h
    unfold sm2KeyVerify
    rw [if_neg (fun hh => hh h)]
    rfl
  · intro n X key dgst r s h hrange
    unfold sm2KeyVerify
    rw [if_neg (fun hh => hh h)]
    show sm2VerifyRetMap (sm2VerifyEngine n X key.pub (digestToE n dgst) (.der r s)) = _
    simp only [sm2VerifyEngine]
    rw [if_pos hrange]
    rfl
  · intro ret h
    unfold sm2VerifyRetMap
    rw [if_pos h]
  · intro ret h
    unfold sm2VerifyRetMap
    rw [if_neg (by omega)]
    by_cases h0 : ret = 0
    · exact ⟨false, by rw [if_pos h0]⟩
    · exact ⟨true, by rw [if_neg h0]⟩
  · intro ret h
    unfold sm2SigVerifyRetMap
    rw [if_pos h]
  · intro ret h
    unfold sm2SigVerifyRetMap
    rw [if_neg (by omega)]
    by_cases h0 : ret = 0
    · exact ⟨false, by rw [if_pos h0]⟩
    · exact ⟨true, by rw [if_neg h0]⟩

/-- C8 witness: concrete instances — a malformed signature and an out-of-range
`r` both give `.ok false`; engine code −1 raises the generic InnerError; engine
code 2 gives a boolean. -/
theorem claim_C8_witness :
    (sm2KeyVerify 11 (fun x => x) ⟨3, 3⟩ (List.replicate 32 0) .malformed).result =
      .ok false ∧
    (sm2KeyVerify 11 (fun x => x) ⟨3, 3⟩ (List.replicate 32 0) (.der 11 5)).result =
      .ok false ∧
    sm2VerifyRetMap (-1) = .error genericInnerError ∧
    (∃ b : Bool, sm2VerifyRetMap 2 = .ok b) ∧
    sm2SigVerifyRetMap (-1) = .error genericInnerError ∧
    (∃ b : Bool, sm2SigVerifyRetMap 2 = .ok b) :=
  ⟨claim_C8.1 11 (fun x => x) ⟨3, 3⟩ (List.replicate 32 0) (by decide),
   claim_C8.2.1 11 (fun x => x) ⟨3, 3⟩ (List.replicate 32 0) 11 5 (by decide)
     (by decide),
   claim_C8.2.2.1 (-1) (by decide),
   claim_C8.2.2.2.1 2 (by decide),
   claim_C8.2.2.2.2.1 (-1) (by decide),
   claim_C8.2.2.2.2.2 2 (by decide)⟩

/-- C9: the PEM key import/export wrappers do NOT close the file handle on the
failure path — `raise InnerError` at gmssl.py lines 367-368 / 375-376 / 383-384 /
391-392 executes before `libc.fclose(fp)`, so an engine failure (for example a
wrong password on import) leaks the handle; the success path does close it.
This contradicts the claim (and the spec's stated intent of guaranteed closure
on every exit path): the code is at fault. -/
theorem claim_C9 :
    (pemKeyOp false).result = .error genericInnerError ∧
    PemEv.fileOpen ∈ (pemKeyOp false).events ∧
    PemEv.fileClose ∉ (pemKeyOp false).events ∧
    (pemKeyOp true).result = .ok true ∧
    PemEv.fileClose ∈ (pemKeyOp true).events :=
  ⟨rfl, by decide, by decide, rfl, by decide⟩

/-- C10: a digest whose length differs from 32 bytes makes `Sm2Key.verify` raise
`ValueError('Invalid SM3 digest size')` before the engine is invoked, with the
key unchanged — it is never reported as the boolean False. -/
theorem claim_C10 (n : Nat) (X : ZMod n → ZMod n) (key : Sm2KeyM n)
    (dgst : List Nat) (sig : Sm2SigEnc) (h : dgst.length ≠ 32) :
    (sm2KeyVerify n X key dgst sig).result =
      .error (.valueError "Invalid SM3 digest size") ∧
    (sm2KeyVerify n X key dgst sig).engineCalled = false ∧
    (sm2KeyVerify n X key dgst sig).keyAfter = key := by
  unfold sm2KeyVerify
  rw [if_pos h]
  exact ⟨rfl, rfl, rfl⟩

/-- C10 witness: a 31-byte digest raises the validation error without an engine
call. -/
theorem claim_C10_witness :
    (List.replicate 31 0 : List Nat).length ≠ 32 ∧
    (sm2KeyVerify 11 (fun x => x) ⟨0, 0⟩ (List.replicate 31 0) .malformed).result =
      .error (.valueError "Invalid SM3 digest size") ∧
    (sm2KeyVerify 11 (fun x => x) ⟨0, 0⟩ (List.replicate 31 0) .malformed).engineCalled =
      false :=
  ⟨by decide,
   (claim_C10 11 (fun x => x) ⟨0, 0⟩ (List.replicate 31 0) .malformed (by decide)).1,
   (claim_C10 11 (fun x => x) ⟨0, 0⟩ (List.replicate 31 0) .malformed (by decide)).2.1⟩

theorem flatten_singletons (M : List Nat) : (M.map fun c => [c]).flatten = M := by
  induction M with
  | nil => rfl
  | cons b bs ih => simp [ih]

theorem sm4CtrUpd_runChunks (sbox : Nat → Nat) :
    ∀ (cs : List (List Nat)) (st : Sm4CtrSt),
      runChunks (sm4CtrUpd sbox) st cs =
        (⟨st.rks, (runChunks (streamUpd (ctrStep sbox st.rks) 16 0) st.core cs).1⟩,
         (runChunks (streamUpd (ctrStep sbox st.rks) 16 0) st.core cs).2) := by
  intro cs
  induction cs with
  | nil => intro st; rfl
  | cons c cs ih =>
    intro st
    show (let r1 := sm4CtrUpd sbox st c
          let r2 := runChunks (sm4CtrUpd sbox) r1.1 cs
          (r2.1, r1.2 ++ r2.2)) = _
    rw [show sm4CtrUpd sbox st c =
      (⟨st.rks, (streamUpd (ctrStep sbox st.rks) 16 0 st.core c).1⟩,
       (streamUpd (ctrStep sbox st.rks) 16 0 st.core c).2) from rfl]
    dsimp only
    rw [ih ⟨st.rks, (streamUpd (ctrStep sbox st.rks) 16 0 st.core c).1⟩]
    rfl

theorem sm4CbcUpd_runChunks_enc (sbox : Nat → Nat) :
    ∀ (cs : List (List Nat)) (st : Sm4CbcSt), st.encdir = true →
      runChunks (sm4CbcUpd sbox) st cs =
        (⟨st.rks, true, (runChunks (streamUpd (cbcEncStep sbox st.rks) 16 0) st.core cs).1⟩,
         (runChunks (streamUpd (cbcEncStep sbox st.rks) 16 0) st.core cs).2) := by
  intro cs
  induction cs with
  | nil =>
    intro st hdir
    obtain ⟨rks, dir, core⟩ := st
    cases hdir
    rfl
  | cons c cs ih =>
    intro st hdir
    obtain ⟨rks, dir, core⟩ := st
    cases hdir
    show (let r1 := sm4CbcUpd sbox ⟨rks, true, core⟩ c
          let r2 := runChunks (sm4CbcUpd sbox) r1.1 cs
          (r2.1, r1.2 ++ r2.2)) = _
    rw [show sm4CbcUpd sbox ⟨rks, true, core⟩ c =
      (⟨rks, true, (streamUpd (cbcEncStep sbox rks) 16 0 core c).1⟩,
       (streamUpd (cbcEncStep sbox rks) 16 0 core c).2) from rfl]
    dsimp only
    rw [ih ⟨rks, true, (streamUpd (cbcEncStep sbox rks) 16 0 core c).1⟩ rfl]
    rfl

theorem sm4CbcUpd_runChunks_dec (sbox : Nat → Nat) :
    ∀ (cs : List (List Nat)) (st : Sm4CbcSt), st.encdir = false →
      runChunks (sm4CbcUpd sbox) st cs =
        (⟨st.rks, false, (runChunks (streamUpd (cbcDecStep sbox st.rks) 16 1) st.core cs).1⟩,
         (runChunks (streamUpd (cbcDecStep sbox st.rks) 16 1) st.core cs).2) := by
  intro cs
  induction cs with
  | nil =>
    intro st hdir
    obtain ⟨rks, dir, core⟩ := st
    cases hdir
    rfl
  | cons c cs ih =>
    intro st hdir
    obtain ⟨rks, dir, core⟩ := st
    cases hdir
    show (let r1 := sm4CbcUpd sbox ⟨rks, false, core⟩ c
          let r2 := runChunks (sm4CbcUpd sbox) r1.1 cs
          (r2.1, r1.2 ++ r2.2)) = _
    rw [show sm4CbcUpd sbox ⟨rks, false, core⟩ c =
      (⟨rks, false, (streamUpd (cbcDecStep sbox rks) 16 1 core c).1⟩,
       (streamUpd (cbcDecStep sbox rks) 16 1 core c).2) from rfl]
    dsimp only
    rw [ih ⟨rks, false, (streamUpd (cbcDecStep sbox rks) 16 1 core c).1⟩ rfl]
    rfl

/-- C5: feeding a CTR, ZUC or CBC state one byte at a time produces the same
final state — hence the same finish output — and the same cumulative update
output as feeding the whole message in a single update call. -/
theorem claim_C5 :
    (∀ (sbox : Nat → Nat) (st : Sm4CtrSt) (M : List Nat), st.core.buf.length < 16 →
      runChunks (sm4CtrUpd sbox) st (M.map fun c => [c]) = sm4CtrUpd sbox st M) ∧
    (∀ (ks : Nat → Nat) (st : StreamSt Nat) (M : List Nat), st.buf.length < 4 →
      runChunks (zucUpd ks) st (M.map fun c => [c]) = zucUpd ks st M) ∧
    (∀ (sbox : Nat → Nat) (st : Sm4CbcSt) (M : List Nat),
      (st.encdir = true → st.core.buf.length < 16) →
      (st.encdir = false → st.core.buf.length < 17) →
      runChunks (sm4CbcUpd sbox) st (M.map fun c => [c]) = sm4CbcUpd sbox st M) := by
  refine ⟨?_, ?_, ?_⟩
  · intro sbox st M hbuf
    rw [sm4CtrUpd_runChunks]
    rw [runChunks_join (ctrStep sbox st.rks) 16 0 (by omega) _ st.core (by omega)]
    rw [flatten_singletons]
    rfl
  · intro ks st M hbuf
    show runChunks (streamUpd (zucStep ks) 4 0) st (M.map fun c => [c]) = _
    rw [runChunks_join (zucStep ks) 4 0 (by omega) _ st (by omega)]
    rw [flatten_singletons]
    rfl
  · intro sbox st M hbufe hbufd
    cases hdir : st.encdir with
    | true =>
      rw [sm4CbcUpd_runChunks_enc sbox _ st hdir]
      rw [runChunks_join (cbcEncStep sbox st.rks) 16 0 (by omega) _ st.core
        (by have := hbufe hdir; omega)]
      rw [flatten_singletons]
      obtain ⟨rks, dir, core⟩ := st
      cases hdir
      rfl
    | false =>
      rw [sm4CbcUpd_runChunks_dec sbox _ st hdir]
      rw [runChunks_join (cbcDecStep sbox st.rks) 16 1 (by omega) _ st.core
        (by have := hbufd hdir; omega)]
      rw [flatten_singletons]
      obtain ⟨rks, dir, core⟩ := st
      cases hdir
      rfl

/-- C5 witness: concrete fresh states of all three modes, fed [1,2,3] byte by
byte. -/
theorem claim_C5_witness :
    runChunks (sm4CtrUpd sboxId) ⟨[], ⟨0, []⟩⟩ (([1, 2, 3] : List Nat).map fun c => [c]) =
      sm4CtrUpd sboxId ⟨[], ⟨0, []⟩⟩ [1, 2, 3] ∧
    runChunks (zucUpd (fun i => i)) ⟨0, []⟩ (([1, 2, 3] : List Nat).map fun c => [c]) =
      zucUpd (fun i => i) ⟨0, []⟩ [1, 2, 3] ∧
    runChunks (sm4CbcUpd sboxId) ⟨[], false, ⟨key16z, []⟩⟩
        (([1, 2, 3] : List Nat).map fun c => [c]) =
      sm4CbcUpd sboxId ⟨[], false, ⟨key16z, []⟩⟩ [1, 2, 3] :=
  ⟨claim_C5.1 sboxId ⟨[], ⟨0, []⟩⟩ [1, 2, 3] (by decide),
   claim_C5.2.1 (fun i => i) ⟨0, []⟩ [1, 2, 3] (by decide),
   claim_C5.2.2 sboxId ⟨[], false, ⟨key16z, []⟩⟩ [1, 2, 3]
     (fun h => by simp at h) (fun _ => by decide)⟩

/-- C2: for all 16-byte keys and IVs and byte messages of any length, decrypting
the encryption of M (concatenating all update outputs with the finish output,
same key/IV, same AAD for GCM) returns exactly M, for CBC, CTR, GCM and ZUC. -/
theorem claim_C2 :
    (∀ (sbox : Nat → Nat) (key iv M C : List Nat), key.length = 16 →
      iv.length = 16 → allBytes iv → allBytes M →
      sm4CbcEncryptMsg sbox key iv M = .ok C →
      sm4CbcDecryptMsg sbox key iv C = .ok M) ∧
    (∀ (sbox : Nat → Nat) (key iv M C : List Nat), key.length = 16 →
      iv.length = 16 →
      sm4CtrMsg sbox key iv M = .ok C → sm4CtrMsg sbox key iv C = .ok M) ∧
    (∀ (sbox : Nat → Nat) (key iv aad M C : List Nat) (taglen : Nat),
      key.length = 16 → 1 ≤ iv.length → iv.length ≤ 64 → 1 ≤ taglen → taglen ≤ 16 →
      sm4GcmEncryptMsg sbox key iv aad taglen M = .ok C →
      sm4GcmDecryptMsg sbox key iv aad taglen C = .ok M) ∧
    (∀ (ks : Nat → Nat) (key iv M C : List Nat), key.length = 16 → iv.length = 16 →
      zucMsg ks key iv M = .ok C → zucMsg ks key iv C = .ok M) :=
  ⟨fun sbox key iv M C hk hiv hivb hMb hC =>
    sm4CbcMsg_roundtrip sbox key iv M hk hiv hivb hMb C hC,
   fun sbox key iv M C hk hiv hC => sm4CtrMsg_roundtrip sbox key iv M hk hiv C hC,
   fun sbox key iv aad M C taglen hk h1 h2 h3 h4 hC =>
    sm4GcmMsg_roundtrip sbox key iv aad M taglen hk h1 h2 h3 h4 C hC,
   fun ks key iv M C hk hiv hC => zucMsg_roundtrip ks key iv M hk hiv C hC⟩

def cbcDemoC : List Nat :=
  match sm4CbcEncryptMsg sboxId key16z key16z [1, 2, 3] with
  | .ok c => c
  | .error _ => []

def ctrDemoC : List Nat :=
  match sm4CtrMsg sboxId key16z key16z [1, 2, 3] with
  | .ok c => c
  | .error _ => []

def gcmDemoC : List Nat :=
  match sm4GcmEncryptMsg sboxId key16z iv12z [4, 5] 16 [1, 2, 3] with
  | .ok c => c
  | .error _ => []

def zucDemoC : List Nat :=
  match zucMsg (fun i => i) key16z key16z [1, 2, 3] with
  | .ok c => c
  | .error _ => []

/-- C2 witness: the four round trips at concrete key/IV/AAD and message
[1,2,3]. -/
theorem claim_C2_witness :
    sm4CbcDecryptMsg sboxId key16z key16z cbcDemoC = .ok [1, 2, 3] ∧
    sm4CtrMsg sboxId key16z key16z ctrDemoC = .ok [1, 2, 3] ∧
    sm4GcmDecryptMsg sboxId key16z iv12z [4, 5] 16 gcmDemoC = .ok [1, 2, 3] ∧
    zucMsg (fun i => i) key16z key16z zucDemoC = .ok [1, 2, 3] :=
  ⟨claim_C2.1 sboxId key16z key16z [1, 2, 3] cbcDemoC (by decide) (by decide)
     (by decide) (by decide) (by rfl),
   claim_C2.2.1 sboxId key16z key16z [1, 2, 3] ctrDemoC (by decide) (by decide)
     (by rfl),
   claim_C2.2.2.1 sboxId key16z iv12z [4, 5] [1, 2, 3] gcmDemoC 16 (by decide)
     (by decide) (by decide) (by decide) (by decide) (by rfl),
   claim_C2.2.2.2 (fun i => i) key16z key16z [1, 2, 3] zucDemoC (by decide)
     (by decide) (by rfl)⟩

/-- C3 counterexample: the claim fails on two counts, shown at a concrete
instance of the group model (n = 11, x-coordinate map X u = u² — which, like the
genuine curve x-coordinate, identifies u and −u — key d = 2, nonce k = 7).
Signing the 32-byte digest 31×00 ‖ 03 yields the signature (8, 8); verifying that
SAME signature (a) against the DIFFERENT 32-byte digest 31×00 ‖ 0e — different
bytes, but congruent to the original as an integer mod n — returns True, not
False; and (b) a tampered but structurally well-formed signature (8, 7) — the
malleable twin −(k + r·d)/(1+d) arising from the x(−u) = x(u) symmetry — also
returns True, not False. -/
theorem claim_C3_counterexample :
    (List.replicate 31 0 ++ [14] : List Nat) ≠ List.replicate 31 0 ++ [3] ∧
    (List.replicate 31 0 ++ [14] : List Nat).length = 32 ∧
    (List.replicate 31 0 ++ [3] : List Nat).length = 32 ∧
    sm2KeySign 11 (fun u => u * u) ⟨2, 2⟩ 7 (List.replicate 31 0 ++ [3]) =
      .ok (.der 8 8) ∧
    (sm2KeyVerify 11 (fun u => u * u) ⟨2, 2⟩ (List.replicate 31 0 ++ [3])
      (.der 8 8)).result = .ok true ∧
    (sm2KeyVerify 11 (fun u => u * u) ⟨2, 2⟩ (List.replicate 31 0 ++ [14])
      (.der 8 8)).result = .ok true ∧
    Sm2SigEnc.der 8 7 ≠ Sm2SigEnc.der 8 8 ∧
    (sm2KeyVerify 11 (fun u => u * u) ⟨2, 2⟩ (List.replicate 31 0 ++ [3])
      (.der 8 7)).result = .ok true :=
  ⟨by decide, by decide, by decide, rfl, rfl, rfl, by decide, rfl⟩

/-- C3 (amended): over the group model of the SM2 engine, for every key pair and
32-byte digest (with an honest nonce accepted by the signing equations),
verify(digest, sign(digest)) returns the boolean true; verifying the same
signature against another 32-byte digest returns the boolean false whenever the
two digests differ as integers mod n (digests congruent mod n verify true, and
tampered well-formed signatures can verify true by malleability); and every
structurally well-formed (DER-decodable) signature — tampered or not — yields a
boolean rather than raising an error. -/
theorem claim_C3 (n : Nat) [hp : Fact (Nat.Prime n)] (X : ZMod n → ZMod n)
    (d k : ZMod n) (dgst : List Nat) (h32 : dgst.length = 32) (h1d : 1 + d ≠ 0)
    (r s : ZMod n) (hsig : sm2SignEq n X d k (digestToE n dgst) = some (r, s))
    (hts : r + s ≠ 0) :
    sm2KeySign n X ⟨d, d⟩ k dgst = .ok (.der r.val s.val) ∧
    (sm2KeyVerify n X ⟨d, d⟩ dgst (.der r.val s.val)).result = .ok true ∧
    (∀ dgst' : List Nat, dgst'.length = 32 →
      digestToE n dgst' ≠ digestToE n dgst →
      (sm2KeyVerify n X ⟨d, d⟩ dgst' (.der r.val s.val)).result = .ok false) ∧
    (∀ r' s' : Nat, ∃ b : Bool,
      (sm2KeyVerify n X ⟨d, d⟩ dgst (.der r' s')).result = .ok b) := by
  haveI : NeZero n := ⟨hp.out.ne_zero⟩
  obtain ⟨hre, hse, hr0, hs0, hrk⟩ := sm2SignEq_some n X d k (digestToE n dgst) r s hsig
  obtain ⟨hv1, hv2, hv3⟩ := sm2_verify_results n X d k (digestToE n dgst) r s h1d hsig hts
  have hcastr : ((r.val : Nat) : ZMod n) = r := ZMod.natCast_rightInverse r
  have hcasts : ((s.val : Nat) : ZMod n) = s := ZMod.natCast_rightInverse s
  have hvalr : r.val ≠ 0 := fun h => hr0 (by rw [← hcastr, h, Nat.cast_zero])
  have hvals : s.val ≠ 0 := fun h => hs0 (by rw [← hcasts, h, Nat.cast_zero])
  have hrange : ¬(r.val = 0 ∨ n ≤ r.val ∨ s.val = 0 ∨ n ≤ s.val) := by
    push_neg
    exact ⟨hvalr, ZMod.val_lt r, hvals, ZMod.val_lt s⟩
  refine ⟨?_, ?_, ?_, ?_⟩
  · unfold sm2KeySign
    rw [if_neg (fun hh => hh h32), hsig]
  · unfold sm2KeyVerify
    rw [if_neg (fun hh => hh h32)]
    show sm2VerifyRetMap _ = _
    simp only [sm2VerifyEngine]
    rw [if_neg hrange, hcastr, hcasts]
    show sm2VerifyRetMap (if sm2VerifyCore n X d (digestToE n dgst) r s = true
      then 1 else 0) = _
    rw [hv1, if_pos rfl]
    rfl
  · intro dgst' h32' hne
    unfold sm2KeyVerify
    rw [if_neg (fun hh => hh h32')]
    show sm2VerifyRetMap _ = _
    simp only [sm2VerifyEngine]
    rw [if_neg hrange, hcastr, hcasts]
    show sm2VerifyRetMap (if sm2VerifyCore n X d (digestToE n dgst') r s = true
      then 1 else 0) = _
    rw [hv2 (digestToE n dgst') hne]
    rfl
  · intro r' s'
    unfold sm2KeyVerify
    rw [if_neg (fun hh => hh h32)]
    show ∃ b : Bool, sm2VerifyRetMap _ = .ok b
    simp only [sm2VerifyEngine]
    by_cases hc : r' = 0 ∨ n ≤ r' ∨ s' = 0 ∨ n ≤ s'
    · rw [if_pos hc]
      exact ⟨false, rfl⟩
    · rw [if_neg hc]
      by_cases hcore : sm2VerifyCore n X d (digestToE n dgst) (r' : ZMod n)
          (s' : ZMod n) = true
      · rw [if_pos hcore]
        exact ⟨true, rfl⟩
      · rw [if_neg hcore]
        exact ⟨false, rfl⟩

/-- C3 witness: the concrete instance n = 11, X = id, d = 3, k = 5,
digest = 31 zero bytes then 2, giving the signature (r, s) = (7, 7): the round
trip verifies true, the digest ending in 3 (different mod 11) verifies false,
and a tampered well-formed signature (7, 1) yields a boolean. -/
theorem claim_C3_witness :
    (sm2KeyVerify 11 (fun x => x) ⟨3, 3⟩ (List.replicate 31 0 ++ [2])
      (.der (7 : ZMod 11).val (7 : ZMod 11).val)).result = .ok true ∧
    (sm2KeyVerify 11 (fun x => x) ⟨3, 3⟩ (List.replicate 31 0 ++ [3])
      (.der (7 : ZMod 11).val (7 : ZMod 11).val)).result = .ok false ∧
    (∃ b : Bool, (sm2KeyVerify 11 (fun x => x) ⟨3, 3⟩ (List.replicate 31 0 ++ [2])
      (.der 7 1)).result = .ok b) := by
  have e32 : (List.replicate 31 0 ++ [2] : List Nat).length = 32 := by decide
  have e1d : (1 : ZMod 11) + 3 ≠ 0 := by decide
  have esig : sm2SignEq 11 (fun x => x) 3 5
      (digestToE 11 (List.replicate 31 0 ++ [2])) = some (7, 7) := by decide
  have ets : (7 : ZMod 11) + 7 ≠ 0 := by decide
  have e32x : (List.replicate 31 0 ++ [3] : List Nat).length = 32 := by decide
  have ene : digestToE 11 (List.replicate 31 0 ++ [3]) ≠
      digestToE 11 (List.replicate 31 0 ++ [2]) := by decide
  haveI : Fact (Nat.Prime 11) := ⟨by norm_num⟩
  have h := claim_C3 11 (fun x => x) 3 5 (List.replicate 31 0 ++ [2]) e32 e1d 7 7
    esig ets
  exact ⟨h.2.1, h.2.2.1 (List.replicate 31 0 ++ [3]) e32x ene, h.2.2.2 7 1⟩

end GmsslPy
